import Mathlib

/-!
Verification development for the phantasmal-world script-engine core:
a shallow embedding of the control-flow-graph builder and backward
value-set analysis (data_flow/ControlFlowGraph module), the quest-runner
stepping logic (QuestRunner), and the binary object-code codec, together
with theorems about the properties the specification states for them.

Machine integers of the source are modelled as Int/Nat.  Stateful
traversals of the source (recursive walks over a possibly cyclic graph)
are modelled with an explicit fuel parameter: a result of `none` means
the recursion exceeded the given depth, so a function of the source
diverges on an input exactly when the fueled embedding returns `none`
for every fuel value.
-/

namespace PhantasmalWorld

/-- Source tokens: line/column of a mnemonic, as carried by instructions
produced from assembled text (AsmToken in the source). -/
structure AsmToken where
  line_no : Nat
  col : Nat
  deriving DecidableEq, Repr

/-- The opcodes the embedded code inspects.  The control-flow-graph
builder, the value-set analysis and the stepper each match on a fixed
set of opcodes and treat everything else uniformly; `other n` stands
for any opcode outside that set. -/
inductive Opcode where
  | ret | jmp | jmp_on | jmp_off
  | jmp_e | jmpi_e | jmp_ne | jmpi_ne
  | ujmp_g | ujmpi_g | jmp_g | jmpi_g
  | ujmp_l | ujmpi_l | jmp_l | jmpi_l
  | ujmp_ge | ujmpi_ge | jmp_ge | jmpi_ge
  | ujmp_le | ujmpi_le | jmp_le | jmpi_le
  | switch_jmp
  | call | va_call | switch_call
  | op_let | leti | letb | letw | leto
  | other (code : Nat)
  deriving DecidableEq, Repr

/-- An instruction: an opcode, its argument values, and optionally the
source token of its mnemonic (instruction.asm.mnemonic in the source). -/
structure Instruction where
  opcode : Opcode
  args : List Int
  asm : Option AsmToken := none
  deriving DecidableEq, Repr

/-- Argument access, `inst.args[i].value` in the source. -/
def argI (inst : Instruction) (i : Nat) : Int :=
  inst.args.getD i 0

/-- An instruction segment: the labels addressing its first instruction
plus its ordered instruction list. -/
structure InstructionSegment where
  labels : List Int
  instructions : List Instruction
  deriving DecidableEq, Repr

/-- Branch classification of a basic block (BranchType in the source). -/
inductive BranchType where
  | None | Return | Jump | ConditionalJump | Call
  deriving DecidableEq, Repr

/-- A basic block: its segment (by index into the segment list), its
[start, end) instruction index range, its branch classification and its
branch labels.  Edges live in the graph, not in the block, because the
source mutates the shared to/from arrays while linking. -/
structure BasicBlock where
  seg_idx : Nat
  start : Nat
  end_ : Nat
  branch_type : BranchType
  branch_labels : List Int
  deriving DecidableEq, Repr

instance : Inhabited BasicBlock := ⟨⟨0, 0, 0, BranchType.Return, []⟩⟩

/-- The control-flow graph: the segment list it was built from, its
blocks in creation order, the label-to-block map, the recorded
(call block, continuation block) pairs, and the edge list in insertion
order.  An edge (a, b) means block a links to block b; the source's
per-block to/from arrays are recovered by filtering this list. -/
structure ControlFlowGraph where
  segments : List InstructionSegment
  blocks : List BasicBlock
  labels : List (Int × Nat)
  callers : List (Nat × Nat)
  edges : List (Nat × Nat)
  deriving DecidableEq, Repr

/-- Lookup in the label-to-block map.  The source uses a Map whose
`set` overwrites, so the entry written last wins. -/
def lb_get (lbs : List (Int × Nat)) (l : Int) : Option Nat :=
  (lbs.reverse.find? (fun p => p.1 == l)).map (·.2)

/-- Branch classification of one instruction (the switch statement of
create_basic_blocks).  Returns the branch type and branch labels when
the instruction closes a block; `none` when the scan continues.  The
default case closes a block (with branch type None) only at the last
instruction of the segment. -/
def classify (inst : Instruction) (is_last : Bool) : Option (BranchType × List Int) :=
  match inst.opcode with
  | .ret => some (.Return, [])
  | .jmp => some (.Jump, [argI inst 0])
  | .jmp_on | .jmp_off => some (.ConditionalJump, [argI inst 0])
  | .jmp_e | .jmpi_e | .jmp_ne | .jmpi_ne
  | .ujmp_g | .ujmpi_g | .jmp_g | .jmpi_g
  | .ujmp_l | .ujmpi_l | .jmp_l | .jmpi_l
  | .ujmp_ge | .ujmpi_ge | .jmp_ge | .jmpi_ge
  | .ujmp_le | .ujmpi_le | .jmp_le | .jmpi_le =>
      some (.ConditionalJump, [argI inst 2])
  | .switch_jmp => some (.ConditionalJump, inst.args.drop 1)
  | .call | .va_call => some (.Call, [argI inst 0])
  | .switch_call => some (.Call, inst.args.drop 1)
  | _ => if is_last then some (.None, []) else none

/-- The block-splitting loop of create_basic_blocks over one segment:
`n` is the number of instructions left to scan, `start` the start of
the block being accumulated, `i` the current index. -/
def create_basic_blocks_aux (seg_idx : Nat) (insts : List Instruction) :
    Nat → Nat → Nat → List BasicBlock
  | 0, _, _ => []
  | n + 1, start, i =>
    match insts.get? i with
    | none => []
    | some inst =>
      match classify inst (i + 1 == insts.length) with
      | some (bt, labels) =>
          ⟨seg_idx, start, i + 1, bt, labels⟩ ::
            create_basic_blocks_aux seg_idx insts n (i + 1) (i + 1)
      | none => create_basic_blocks_aux seg_idx insts n start (i + 1)

/-- Basic blocks of one segment, in creation order. -/
def create_basic_blocks (seg_idx : Nat) (insts : List Instruction) : List BasicBlock :=
  create_basic_blocks_aux seg_idx insts insts.length 0 0

/-- Blocks of every segment, concatenated in segment order (the order
cfg.blocks receives them in the source). -/
def all_blocks_aux : Nat → List InstructionSegment → List BasicBlock
  | _, [] => []
  | s, seg :: rest =>
      create_basic_blocks s seg.instructions ++ all_blocks_aux (s + 1) rest

def all_blocks (segs : List InstructionSegment) : List BasicBlock :=
  all_blocks_aux 0 segs

/-- The label-to-block entries, in write order: each segment that
produced at least one block maps every one of its labels to its first
block (whose global index is the running block offset). -/
def label_map_aux : Nat → Nat → List InstructionSegment → List (Int × Nat)
  | _, _, [] => []
  | s, off, seg :: rest =>
    let bs := create_basic_blocks s seg.instructions
    (if bs.isEmpty then [] else seg.labels.map (fun l => (l, off))) ++
      label_map_aux (s + 1) (off + bs.length) rest

def label_map (segs : List InstructionSegment) : List (Int × Nat) :=
  label_map_aux 0 0 segs

/-- Block access by index (blocks are only ever accessed in range). -/
def blockAtL (blocks : List BasicBlock) (i : Nat) : BasicBlock :=
  blocks.getD i default

/-- The blocks of a list tile the index interval [a, c): the first
block starts at a, each block is nonempty and ends where the next one
starts, and the last one ends at c. -/
def tiles : List BasicBlock → Nat → Nat → Prop
  | [], a, c => a = c
  | blk :: rest, a, c => blk.start = a ∧ a < blk.end_ ∧ tiles rest blk.end_ c

/-- One iteration of the main loop of link_blocks for the block at
index `i` out of `n` blocks: the edges it appends and the caller pairs
it records.  Return blocks skip the whole iteration body (`continue`);
Call blocks record the continuation pair and link to their label
targets; None and ConditionalJump blocks link to the physically next
block and to their label targets; Jump blocks (no switch case) link
only to their label targets.  Unresolvable labels add no edge. -/
def link_step (lbs : List (Int × Nat)) (n i : Nat) (blk : BasicBlock) :
    List (Nat × Nat) × List (Nat × Nat) :=
  match blk.branch_type with
  | .Return => ([], [])
  | .Call =>
      (blk.branch_labels.filterMap (fun l => (lb_get lbs l).map (fun t => (i, t))),
       if i + 1 < n then [(i, i + 1)] else [])
  | .Jump =>
      (blk.branch_labels.filterMap (fun l => (lb_get lbs l).map (fun t => (i, t))), [])
  | .None | .ConditionalJump =>
      ((if i + 1 < n then [(i, i + 1)] else []) ++
        blk.branch_labels.filterMap (fun l => (lb_get lbs l).map (fun t => (i, t))), [])

/-- The main loop of link_blocks: all edges and caller pairs, in
iteration order. -/
def link_main (lbs : List (Int × Nat)) (blocks : List BasicBlock) :
    List (Nat × Nat) × List (Nat × Nat) :=
  ((blocks.enum.map (fun p => (link_step lbs blocks.length p.1 p.2).1)).flatten,
   (blocks.enum.map (fun p => (link_step lbs blocks.length p.1 p.2).2)).flatten)

/-- Successor list of block `i` in an edge list, in insertion order
(the to array of the source). -/
def out_edges (E : List (Nat × Nat)) (i : Nat) : List Nat :=
  (E.filter (fun p => p.1 == i)).map (·.2)

/-- The blocks a list of branch labels resolves to, unresolvable labels
dropped. -/
def resolved_targets (lbs : List (Int × Nat)) (labels : List Int) : List Nat :=
  labels.filterMap (lb_get lbs)

/-- The return-linking walk (link_returning_blocks): for each branch
label of the current block, resolve it, link it to the continuation
block `ret` if it is a Return block, and recurse into its own branch
labels.  The source recursion carries no visited set; `fuel` bounds the
recursion depth, and `none` marks that the bound was exceeded. -/
def link_returning_blocks (lbs : List (Int × Nat)) (blocks : List BasicBlock)
    (ret : Nat) : Nat → List Int → List (Nat × Nat) → Option (List (Nat × Nat))
  | 0, _, _ => none
  | _ + 1, [], E => some E
  | fuel + 1, l :: rest, E =>
    match lb_get lbs l with
    | none => link_returning_blocks lbs blocks ret fuel rest E
    | some sb =>
      let E1 :=
        if (blockAtL blocks sb).branch_type = BranchType.Return then E ++ [(sb, ret)] else E
      match link_returning_blocks lbs blocks ret fuel (blockAtL blocks sb).branch_labels E1 with
      | none => none
      | some E2 => link_returning_blocks lbs blocks ret fuel rest E2

/-- The return-linking phase of link_blocks: process the recorded
caller pairs in order, threading the edge list. -/
def run_callers (lbs : List (Int × Nat)) (blocks : List BasicBlock) (fuel : Nat) :
    List (Nat × Nat) → List (Nat × Nat) → Option (List (Nat × Nat))
  | [], E => some E
  | (caller, ret) :: rest, E =>
    match link_returning_blocks lbs blocks ret fuel (blockAtL blocks caller).branch_labels E with
    | none => none
    | some E2 => run_callers lbs blocks fuel rest E2

/-- Builds the control-flow graph of a segment list
(create_control_flow_graph): split segments into blocks, link edges,
then link returning blocks to call continuations.  `none` when the
unguarded return-linking recursion exceeds the fuel depth. -/
def create_control_flow_graph (fuel : Nat) (segs : List InstructionSegment) :
    Option ControlFlowGraph :=
  let blocks := all_blocks segs
  let lbs := label_map segs
  let main := link_main lbs blocks
  (run_callers lbs blocks fuel main.2 main.1).map
    (fun E => ⟨segs, blocks, lbs, main.2, E⟩)

/-- ValueSet of the source, modelled as a finite set of integers: it
supports singleton assignment (set_value), union and an emptiness/size
query, which is all the analysis uses. -/
abbrev ValueSet := Finset Int

/-- Instruction of a block's segment at index `i`. -/
def instAt (cfg : ControlFlowGraph) (b i : Nat) : Option Instruction :=
  match cfg.segments.get? (blockAtL cfg.blocks b).seg_idx with
  | some seg => seg.instructions.get? i
  | none => none

/-- Predecessor list of block `b`, in edge insertion order (the from
array of the source). -/
def from_list (cfg : ControlFlowGraph) (b : Nat) : List Nat :=
  (cfg.edges.filter (fun p => p.2 == b)).map (·.1)

/-- What one instruction does to the value set of the queried register
in the scan of find_value_set: a register-to-register copy targeting it
(`Opcode.let` of the source), a direct immediate load targeting it
(leti / letb / letw / leto), or nothing at all (every other opcode, and
writes to other registers). -/
inductive ScanAction where
  | copy (src : Int)
  | load (v : Int)
  | skip
  deriving DecidableEq, Repr

/-- The opcode switch of find_value_set, classifying one instruction's
effect on the queried register. -/
def scan_action (inst : Instruction) (register : Int) : ScanAction :=
  match inst.opcode with
  | .op_let =>
      if argI inst 0 = register then .copy (argI inst 1) else .skip
  | .leti | .letb | .letw | .leto =>
      if argI inst 0 = register then .load (argI inst 1) else .skip
  | _ => .skip

/-- The forward scan loop of find_value_set: walk `n` instructions of
block `b` starting at index `i`, carrying the accumulated value set.
A register-to-register copy targeting the queried register replaces the
accumulated set with the resolution of its source register at the copy
point (the `resolve` callback, which re-enters find_value_set); a
direct immediate load targeting the register replaces it with a
singleton; every other opcode leaves it unchanged. -/
def scan_block (cfg : ControlFlowGraph) (b : Nat)
    (resolve : Nat → Int → Option ValueSet) (register : Int) :
    Nat → Nat → ValueSet → Option ValueSet
  | 0, _, acc => some acc
  | n + 1, i, acc =>
    match instAt cfg b i with
    | none => scan_block cfg b resolve register n (i + 1) acc
    | some inst =>
      match scan_action inst register with
      | .copy src =>
        match resolve i src with
        | none => none
        | some vs => scan_block cfg b resolve register n (i + 1) vs
      | .load v => scan_block cfg b resolve register n (i + 1) {v}
      | .skip => scan_block cfg b resolve register n (i + 1) acc

/-- Sequential union over the predecessor blocks (the final loop of
find_value_set), threading the accumulated set. -/
def union_preds (resolve : Nat → Option ValueSet) :
    List Nat → ValueSet → Option ValueSet
  | [], acc => some acc
  | p :: rest, acc =>
    match resolve p with
    | none => none
    | some vs => union_preds resolve rest (acc ∪ vs)

/-- find_value_set of the source: scan block `b` from its start up to
(excluding) index `e`; if the accumulated set is empty afterwards, fall
back to the union of the value sets at the end of every predecessor
block.  The source recursion carries no visited set, so `fuel` bounds
the recursion depth and `none` marks that the bound was exceeded. -/
def find_value_set (cfg : ControlFlowGraph) : Nat → Nat → Nat → Int → Option ValueSet
  | 0, _, _, _ => none
  | fuel + 1, b, e, register =>
    let blk := blockAtL cfg.blocks b
    match scan_block cfg b (fun i src => find_value_set cfg fuel b i src) register
        (e - blk.start) blk.start ∅ with
    | none => none
    | some acc =>
      if acc = ∅ then
        union_preds (fun p => find_value_set cfg fuel p (blockAtL cfg.blocks p).end_ register)
          (from_list cfg b) ∅
      else some acc

/-- Index of the block containing instruction (seg_idx, inst_idx), the
cfg.instructions map of the source (which keys instructions by object
identity; since each instruction object occurs at exactly one position,
the positional lookup is the same map). -/
def instr_block (cfg : ControlFlowGraph) (s idx : Nat) : Option Nat :=
  (cfg.blocks.enum.find?
      (fun p => p.2.seg_idx == s && decide (p.2.start ≤ idx) && decide (idx < p.2.end_))).map
    (·.1)

/-- register_value_set of the source: locate the block containing the
instruction and run find_value_set up to the instruction's position; an
instruction absent from the instruction map yields the empty set. -/
def register_value_set (cfg : ControlFlowGraph) (fuel : Nat) (seg_idx inst_idx : Nat)
    (register : Int) : Option ValueSet :=
  match instr_block cfg seg_idx inst_idx with
  | some b => find_value_set cfg fuel b inst_idx register
  | none => some ∅

/-- Backward scan step of the specification's reference definition of
the value-set query (spec 4.6), written from the spec's words for
comparison with find_value_set: scanning backward from the query point,
a direct immediate load targeting the register yields a singleton set
and stops the scan; a register-to-register copy targeting the register
resolves the source register's value set at the copy point and stops;
all other opcodes have no effect; only if the block start is reached
without any resolving instruction is the predecessor fallback taken.
`m` counts the instructions left to walk, `pos` is one past the
instruction inspected next. -/
def spec_scan_back (cfg : ControlFlowGraph) (b : Nat)
    (resolveCopy : Nat → Int → Option ValueSet) (fallback : Option ValueSet)
    (register : Int) : Nat → Nat → Option ValueSet
  | 0, _ => fallback
  | m + 1, pos =>
    match instAt cfg b (pos - 1) with
    | none => spec_scan_back cfg b resolveCopy fallback register m (pos - 1)
    | some inst =>
      match scan_action inst register with
      | .copy src => resolveCopy (pos - 1) src
      | .load v => some {v}
      | .skip => spec_scan_back cfg b resolveCopy fallback register m (pos - 1)

/-- Reference value-set query of the specification (spec 4.6), written
from the spec's words: backward scan within the block, with the
predecessor union taken exactly when the scan reaches the block start
without meeting a resolving instruction. -/
def spec_find_value_set (cfg : ControlFlowGraph) : Nat → Nat → Nat → Int → Option ValueSet
  | 0, _, _, _ => none
  | fuel + 1, b, e, register =>
    let blk := blockAtL cfg.blocks b
    spec_scan_back cfg b (fun i src => spec_find_value_set cfg fuel b i src)
      (union_preds
        (fun p => spec_find_value_set cfg fuel p (blockAtL cfg.blocks p).end_ register)
        (from_list cfg b) ∅)
      register (e - blk.start) e

/-- Reference register_value_set of the specification: locate the block
and run the backward scan from the instruction's position. -/
def spec_register_value_set (cfg : ControlFlowGraph) (fuel : Nat) (seg_idx inst_idx : Nat)
    (register : Int) : Option ValueSet :=
  match instr_block cfg seg_idx inst_idx with
  | some b => spec_find_value_set cfg fuel b inst_idx register
  | none => some ∅

/-! The quest-runner stepping logic (QuestRunner of the source).  The
state kept by the runner that stepping touches: the loaded object code,
the invisible stepping breakpoints (line numbers), and the
break-on-next flag.  The current execution location is supplied by the
virtual machine and is passed as an argument. -/

structure QuestRunnerState where
  object_code : List InstructionSegment
  stepping_breakpoints : List Nat
  break_on_next : Bool
  deriving DecidableEq, Repr

/-- The call-classified opcodes and the position of their label
argument (get_step_innable_instruction_label_argument of the source):
call and va_call carry the label in argument 0, switch_call in
argument 1; every other opcode is not step-innable. -/
def get_step_innable_instruction_label_argument (inst : Instruction) : Option Int :=
  match inst.opcode with
  | .va_call | .call => some (argI inst 0)
  | .switch_call => some (argI inst 1)
  | _ => none

/-- Modelled from the spec: the virtual machine's
get_segment_index_by_label (spec 4.7) is not under src/ (QuestRunner
only calls it); per the spec a Segment carries the labels that address
its first element, so the lookup returns the index of the segment whose
label set contains the label. -/
def get_segment_index_by_label (oc : List InstructionSegment) (l : Int) : Option Nat :=
  (oc.enum.find? (fun p => p.2.labels.contains l)).map (·.1)

/-- step_over of the source: on a call-classified instruction, push a
stepping breakpoint at the source line of the call's continuation — the
next instruction, or the first instruction of the next segment when the
call is last in its segment (no breakpoint is pushed when that
instruction carries no source token); on any other instruction set the
break-on-next flag.  `none` models the source throwing (a location or
continuation outside the loaded object code). -/
def step_over (q : QuestRunnerState) (seg_idx inst_idx : Nat) : Option QuestRunnerState :=
  match q.object_code.get? seg_idx with
  | none => none
  | some src_segment =>
    match src_segment.instructions.get? inst_idx with
    | none => none
    | some cur_instr =>
      match get_step_innable_instruction_label_argument cur_instr with
      | none => some { q with break_on_next := true }
      | some _ =>
        match q.object_code.get?
            (if src_segment.instructions.length ≤ inst_idx + 1 then seg_idx + 1
              else seg_idx) with
        | none => none
        | some dst_segment =>
          match dst_segment.instructions.get?
              (if src_segment.instructions.length ≤ inst_idx + 1 then 0
                else inst_idx + 1) with
          | none => none
          | some dst_instr =>
            match dst_instr.asm with
            | some tok =>
                some { q with
                  stepping_breakpoints := q.stepping_breakpoints ++ [tok.line_no] }
            | none => some q

/-- step_in of the source: on a call-classified instruction, push a
stepping breakpoint at the source line of the first instruction of the
callee's segment; on any other instruction behave exactly like
step_over. -/
def step_in (q : QuestRunnerState) (seg_idx inst_idx : Nat) : Option QuestRunnerState :=
  match q.object_code.get? seg_idx with
  | none => none
  | some src_segment =>
    match src_segment.instructions.get? inst_idx with
    | none => none
    | some cur_instr =>
      match get_step_innable_instruction_label_argument cur_instr with
      | none => step_over q seg_idx inst_idx
      | some dst_label =>
        match get_segment_index_by_label q.object_code dst_label with
        | none => none
        | some dst_seg_idx =>
          match q.object_code.get? dst_seg_idx with
          | none => none
          | some dst_segment =>
            match dst_segment.instructions.get? 0 with
            | none => none
            | some dst_instr =>
              match dst_instr.asm with
              | some tok =>
                  some { q with
                    stepping_breakpoints := q.stepping_breakpoints ++ [tok.line_no] }
              | none => some q

/-! Concrete programs used by the theorems. -/

/-- A program with a branch label that no segment carries: the jump's
label 99 is unresolvable and must be silently dropped. -/
def danglingSegs : List InstructionSegment := [⟨[0], [⟨.jmp, [99], none⟩]⟩]

def cfgDangling : ControlFlowGraph :=
  (create_control_flow_graph 1 danglingSegs).getD ⟨danglingSegs, [], [], [], []⟩

/-- Runner state of a two-segment program whose first instruction is a
call, with source tokens on every instruction. -/
def qW : QuestRunnerState :=
  ⟨[⟨[0], [⟨.call, [1], some ⟨10, 4⟩⟩, ⟨.ret, [], some ⟨11, 4⟩⟩]⟩,
    ⟨[1], [⟨.ret, [], some ⟨20, 4⟩⟩]⟩], [], false⟩

/-- Program of the spec's first worked example: leti r0, 5 followed by
ret; the query point is the ret, i.e. immediately after the load. -/
def ex1Segs : List InstructionSegment :=
  [⟨[0], [⟨.leti, [0, 5], none⟩, ⟨.ret, [], none⟩]⟩]

def cfgEx1 : ControlFlowGraph :=
  (create_control_flow_graph 1 ex1Segs).getD ⟨ex1Segs, [], [], [], []⟩

/-- Program of the spec's join worked example: two predecessor segments
assigning r2 := 1 and r2 := 2, both jumping to a joining segment that
does not assign r2; the query point is the joining segment's entry. -/
def joinSegs : List InstructionSegment :=
  [⟨[0], [⟨.leti, [2, 1], none⟩, ⟨.jmp, [2], none⟩]⟩,
   ⟨[1], [⟨.leti, [2, 2], none⟩, ⟨.jmp, [2], none⟩]⟩,
   ⟨[2], [⟨.ret, [], none⟩]⟩]

def cfgJoin : ControlFlowGraph :=
  (create_control_flow_graph 1 joinSegs).getD ⟨joinSegs, [], [], [], []⟩

/-- Program separating the code from the spec's backward-scan
reference: in the queried block the nearest resolver before the query
point is a copy (let r2, r3) whose source register resolves to the
empty set, an earlier immediate load r2 := 5 exists in the same block,
and the predecessor block loads r2 := 7. -/
def cexSegs : List InstructionSegment :=
  [⟨[0], [⟨.leti, [2, 7], none⟩, ⟨.jmp, [1], none⟩]⟩,
   ⟨[1], [⟨.leti, [2, 5], none⟩, ⟨.op_let, [2, 3], none⟩, ⟨.ret, [], none⟩]⟩]

def cfgCex : ControlFlowGraph :=
  (create_control_flow_graph 1 cexSegs).getD ⟨cexSegs, [], [], [], []⟩

/-- A two-segment program whose first segment ends in a call: the
call's continuation is the first block of the next segment. -/
def wSegs : List InstructionSegment :=
  [⟨[0], [⟨.call, [1], none⟩]⟩, ⟨[1], [⟨.ret, [], none⟩]⟩]

def cfgW : ControlFlowGraph :=
  (create_control_flow_graph 2 wSegs).getD ⟨wSegs, [], [], [], []⟩

/-- A single segment that jumps to its own label: its block is its own
predecessor, so the control-flow graph has a cycle. -/
def loopSegs : List InstructionSegment := [⟨[0], [⟨.jmp, [0], none⟩]⟩]

/-- The control-flow graph of `loopSegs` (its construction needs no
return linking, so any fuel builds it). -/
def cfgLoop : ControlFlowGraph :=
  (create_control_flow_graph 1 loopSegs).getD ⟨loopSegs, [], [], [], []⟩

/-- A segment that calls its own label: a directly recursive
subroutine, the smallest label-reference cycle. -/
def recSegs : List InstructionSegment := [⟨[0], [⟨.call, [0], none⟩, ⟨.ret, [], none⟩]⟩]

namespace Codec

/-!
Modelled from the spec: the binary object-code codec (parse_bin and
write_bin of src/core/data_formats/parsing/quest/bin) is not under
src/ — only its round-trip tests and its callers are — so the codec is
modelled from spec sections 4.1, 4.2 and 6.  A program is a byte
stream of segments; each segment begins with a small header recording
its kind and the labels that target it; instruction segments encode
each instruction as its opcode code — codes above the single-byte
range behind a reserved escape byte selecting a secondary code page —
followed by its arguments at the widths fixed by the opcode table,
with a trailing variadic descriptor consuming the remaining operands
(count-prefixed so that the instruction boundary is decodable).
Multi-byte values are little-endian.  Element counts are one byte and
data lengths two bytes; these concrete header widths instantiate the
spec's "small header".
-/

/-- Argument-type descriptors of the opcode table (spec 3): register
index, 8/16/32-bit immediate, label reference, or inline string. -/
inductive ParamType where
  | reg
  | imm8
  | imm16
  | imm32
  | label
  | str
  deriving DecidableEq, Repr

/-- An opcode's signature: its ordered fixed parameter types and an
optional repeating variadic tail type. -/
structure OpSig where
  params : List ParamType
  vararg : Option ParamType
  deriving DecidableEq, Repr

/-- The opcode table, keyed by numeric code. -/
def OpTable := Nat → Option OpSig

/-- An argument value: an integer or an inline string (as bytes). -/
inductive CArg where
  | num (v : Nat)
  | str (s : List Nat)
  deriving DecidableEq, Repr

/-- An instruction of the codec's IR: numeric opcode code and argument
values. -/
structure CInstr where
  code : Nat
  args : List CArg
  deriving DecidableEq, Repr

/-- A segment of the codec's IR: instructions, raw data, or a string
table, each carrying the labels that target it. -/
inductive CSegment where
  | instructions (labels : List Nat) (insts : List CInstr)
  | data (labels : List Nat) (bytes : List Nat)
  | strings (labels : List Nat) (strs : List (List Nat))
  deriving DecidableEq, Repr

/-- First escape byte: selects the code page 0xF8xx. -/
def ESC1 : Nat := 248

/-- Second escape byte: selects the code page 0xF9xx. -/
def ESC2 : Nat := 249

def enc_u16 (v : Nat) : List Nat := [v % 256, v / 256]

def enc_u32 (v : Nat) : List Nat :=
  [v % 256, v / 256 % 256, v / 65536 % 256, v / 16777216]

def parse_u8 : List Nat → Option (Nat × List Nat)
  | [] => none
  | b :: rest => some (b, rest)

def parse_u16 : List Nat → Option (Nat × List Nat)
  | b0 :: b1 :: rest => some (b0 + 256 * b1, rest)
  | _ => none

def parse_u32 : List Nat → Option (Nat × List Nat)
  | b0 :: b1 :: b2 :: b3 :: rest =>
      some (b0 + 256 * b1 + 65536 * b2 + 16777216 * b3, rest)
  | _ => none

/-- Opcode codes below the escape range encode as one byte; codes of
the two secondary pages encode as the page's escape byte followed by
the low byte. -/
def enc_code (c : Nat) : List Nat :=
  if c < ESC1 then [c]
  else if c < 63744 then [ESC1, c % 256]
  else [ESC2, c % 256]

/-- A code the encoding can represent: one byte below the escape
bytes, or on one of the two escape pages 0xF800-0xF9FF. -/
def valid_code (c : Nat) : Bool :=
  decide (c < ESC1) || (decide (63488 ≤ c) && decide (c < 64000))

/-- Escape detection is part of instruction boundary scanning: the
first byte selects the code page. -/
def parse_code : List Nat → Option (Nat × List Nat)
  | [] => none
  | b :: rest =>
    if b = ESC1 then
      match rest with
      | [] => none
      | b2 :: r2 => some (63488 + b2, r2)
    else if b = ESC2 then
      match rest with
      | [] => none
      | b2 :: r2 => some (63744 + b2, r2)
    else some (b, rest)

/-- Inline strings are zero-terminated. -/
def enc_str (s : List Nat) : List Nat := s ++ [0]

def parse_str : List Nat → Option (List Nat × List Nat)
  | [] => none
  | b :: rest =>
    if b = 0 then some ([], rest)
    else
      match parse_str rest with
      | none => none
      | some (s, r2) => some (b :: s, r2)

def enc_arg : ParamType → CArg → List Nat
  | .reg, .num v => [v]
  | .imm8, .num v => [v]
  | .imm16, .num v => enc_u16 v
  | .imm32, .num v => enc_u32 v
  | .label, .num v => enc_u16 v
  | .str, .str s => enc_str s
  | _, _ => []

def parse_arg : ParamType → List Nat → Option (CArg × List Nat)
  | .reg, bytes => (parse_u8 bytes).map (fun p => (.num p.1, p.2))
  | .imm8, bytes => (parse_u8 bytes).map (fun p => (.num p.1, p.2))
  | .imm16, bytes => (parse_u16 bytes).map (fun p => (.num p.1, p.2))
  | .imm32, bytes => (parse_u32 bytes).map (fun p => (.num p.1, p.2))
  | .label, bytes => (parse_u16 bytes).map (fun p => (.num p.1, p.2))
  | .str, bytes => (parse_str bytes).map (fun p => (.str p.1, p.2))

/-- A value fits its descriptor's width; string bytes are nonzero
single bytes. -/
def valid_arg : ParamType → CArg → Bool
  | .reg, .num v => decide (v < 256)
  | .imm8, .num v => decide (v < 256)
  | .imm16, .num v => decide (v < 65536)
  | .imm32, .num v => decide (v < 4294967296)
  | .label, .num v => decide (v < 65536)
  | .str, .str s => s.all (fun b => decide (b ≠ 0) && decide (b < 256))
  | _, _ => false

def enc_args : List ParamType → List CArg → List Nat
  | t :: ts, a :: rest => enc_arg t a ++ enc_args ts rest
  | _, _ => []

def parse_args : List ParamType → List Nat → Option (List CArg × List Nat)
  | [], bytes => some ([], bytes)
  | t :: ts, bytes =>
    match parse_arg t bytes with
    | none => none
    | some (a, r1) =>
      match parse_args ts r1 with
      | none => none
      | some (rest, r2) => some (a :: rest, r2)

def valid_args : List ParamType → List CArg → Bool
  | [], [] => true
  | t :: ts, a :: rest => valid_arg t a && valid_args ts rest
  | _, _ => false

/-- One instruction: its (possibly escaped) code, its fixed arguments
at the table's widths, and — when its signature ends in a variadic
descriptor — a count byte followed by the remaining operands. -/
def enc_instr (tbl : OpTable) (inst : CInstr) : List Nat :=
  match tbl inst.code with
  | none => []
  | some sig =>
    let fixed := inst.args.take sig.params.length
    let varia := inst.args.drop sig.params.length
    enc_code inst.code ++ enc_args sig.params fixed ++
      (match sig.vararg with
        | none => []
        | some t => varia.length :: enc_args (List.replicate varia.length t) varia)

def parse_instr (tbl : OpTable) (bytes : List Nat) : Option (CInstr × List Nat) :=
  match parse_code bytes with
  | none => none
  | some (c, r1) =>
    match tbl c with
    | none => none
    | some sig =>
      match parse_args sig.params r1 with
      | none => none
      | some (fixed, r2) =>
        match sig.vararg with
        | none => some (⟨c, fixed⟩, r2)
        | some t =>
          match parse_u8 r2 with
          | none => none
          | some (n, r3) =>
            match parse_args (List.replicate n t) r3 with
            | none => none
            | some (varia, r4) => some (⟨c, fixed ++ varia⟩, r4)

/-- An instruction the table can encode: a representable code present
in the table, fixed arguments matching the signature pointwise, and a
variadic tail (fewer than 256 operands, all of the tail type) exactly
when the signature has one. -/
def valid_instr (tbl : OpTable) (inst : CInstr) : Bool :=
  valid_code inst.code &&
    (match tbl inst.code with
      | none => false
      | some sig =>
        valid_args sig.params (inst.args.take sig.params.length) &&
          (match sig.vararg with
            | none => decide (inst.args.length = sig.params.length)
            | some t =>
              decide ((inst.args.drop sig.params.length).length < 256) &&
                valid_args (List.replicate (inst.args.drop sig.params.length).length t)
                  (inst.args.drop sig.params.length)))

def enc_labels (labels : List Nat) : List Nat :=
  labels.length :: (labels.map enc_u16).flatten

def parse_n_u16 : Nat → List Nat → Option (List Nat × List Nat)
  | 0, bytes => some ([], bytes)
  | n + 1, bytes =>
    match parse_u16 bytes with
    | none => none
    | some (v, r1) =>
      match parse_n_u16 n r1 with
      | none => none
      | some (vs, r2) => some (v :: vs, r2)

def parse_labels (bytes : List Nat) : Option (List Nat × List Nat) :=
  match parse_u8 bytes with
  | none => none
  | some (n, r1) => parse_n_u16 n r1

def valid_labels (labels : List Nat) : Bool :=
  decide (labels.length < 256) && labels.all (fun l => decide (l < 65536))

def enc_instrs (tbl : OpTable) (insts : List CInstr) : List Nat :=
  (insts.map (enc_instr tbl)).flatten

def parse_n_instrs (tbl : OpTable) : Nat → List Nat → Option (List CInstr × List Nat)
  | 0, bytes => some ([], bytes)
  | n + 1, bytes =>
    match parse_instr tbl bytes with
    | none => none
    | some (inst, r1) =>
      match parse_n_instrs tbl n r1 with
      | none => none
      | some (insts, r2) => some (inst :: insts, r2)

def enc_strs (strs : List (List Nat)) : List Nat :=
  (strs.map enc_str).flatten

def parse_n_strs : Nat → List Nat → Option (List (List Nat) × List Nat)
  | 0, bytes => some ([], bytes)
  | n + 1, bytes =>
    match parse_str bytes with
    | none => none
    | some (s, r1) =>
      match parse_n_strs n r1 with
      | none => none
      | some (strs, r2) => some (s :: strs, r2)

/-- One segment: a kind byte, the label header, then the
count-prefixed (instructions, string table) or length-prefixed (data)
payload. -/
def enc_segment (tbl : OpTable) : CSegment → List Nat
  | .instructions labels insts =>
      0 :: (enc_labels labels ++ (insts.length :: enc_instrs tbl insts))
  | .data labels bytes =>
      1 :: (enc_labels labels ++ (enc_u16 bytes.length ++ bytes))
  | .strings labels strs =>
      2 :: (enc_labels labels ++ (strs.length :: enc_strs strs))

def parse_segment (tbl : OpTable) : List Nat → Option (CSegment × List Nat)
  | [] => none
  | kind :: rest =>
    match parse_labels rest with
    | none => none
    | some (labels, r1) =>
      if kind = 0 then
        match parse_u8 r1 with
        | none => none
        | some (n, r2) =>
          match parse_n_instrs tbl n r2 with
          | none => none
          | some (insts, r3) => some (.instructions labels insts, r3)
      else if kind = 1 then
        match parse_u16 r1 with
        | none => none
        | some (len, r2) =>
          if len ≤ r2.length then some (.data labels (r2.take len), r2.drop len)
          else none
      else if kind = 2 then
        match parse_u8 r1 with
        | none => none
        | some (n, r2) =>
          match parse_n_strs n r2 with
          | none => none
          | some (strs, r3) => some (.strings labels strs, r3)
      else none

def valid_segment (tbl : OpTable) : CSegment → Bool
  | .instructions labels insts =>
      valid_labels labels && decide (insts.length < 256) &&
        insts.all (valid_instr tbl)
  | .data labels bytes =>
      valid_labels labels && decide (bytes.length < 65536) &&
        bytes.all (fun b => decide (b < 256))
  | .strings labels strs =>
      valid_labels labels && decide (strs.length < 256) &&
        strs.all (fun s => s.all (fun b => decide (b ≠ 0) && decide (b < 256)))

/-- write_bin: the segments' encodings, concatenated. -/
def write_bin (tbl : OpTable) (segs : List CSegment) : List Nat :=
  (segs.map (enc_segment tbl)).flatten

def valid_program (tbl : OpTable) (segs : List CSegment) : Bool :=
  segs.all (valid_segment tbl)

/-- parse_bin's segment loop: parse segments until the byte stream is
exhausted.  The fuel bounds the number of segments; since every
segment's encoding occupies at least its kind byte, a fuel of the
stream's length always suffices. -/
def parse_bin_aux (tbl : OpTable) : Nat → List Nat → Option (List CSegment)
  | _, [] => some []
  | 0, _ :: _ => none
  | fuel + 1, b :: rest =>
    match parse_segment tbl (b :: rest) with
    | none => none
    | some (seg, r1) =>
      match parse_bin_aux tbl fuel r1 with
      | none => none
      | some segs => some (seg :: segs)

/-- parse_bin: segments from a byte stream. -/
def parse_bin (tbl : OpTable) (bytes : List Nat) : Option (List CSegment) :=
  parse_bin_aux tbl bytes.length bytes

/-- A small concrete opcode table: opcode 1 with a register and a
16-bit immediate, and opcode 0xF870 (on the first escape page) with an
inline string and a variadic register tail. -/
def tblW : OpTable := fun c =>
  if c = 1 then some ⟨[.reg, .imm16], none⟩
  else if c = 63600 then some ⟨[.str], some .reg⟩
  else none

/-- A concrete program exercising all three segment kinds, an escaped
opcode, an inline string and a variadic tail. -/
def progW : List CSegment :=
  [.instructions [0] [⟨1, [.num 5, .num 1000]⟩, ⟨63600, [.str [72, 105], .num 3, .num 7]⟩],
   .data [1] [1, 2, 3],
   .strings [2] [[65], [66, 67]]]

end Codec

/-! Lemmas about the forward scan of find_value_set. -/

/-- Splitting the scan: walking m1 + m2 instructions is walking m1 and
then m2 from where the first walk stopped. -/
theorem scan_block_add (cfg : ControlFlowGraph) (b : Nat)
    (resolve : Nat → Int → Option ValueSet) (register : Int) (m1 m2 : Nat) :
    ∀ i acc, scan_block cfg b resolve register (m1 + m2) i acc =
      (scan_block cfg b resolve register m1 i acc).bind
        (fun a => scan_block cfg b resolve register m2 (i + m1) a) := by
  induction m1 with
  | zero =>
    intro i acc
    simp [scan_block]
  | succ m1 ih =>
    intro i acc
    rw [Nat.succ_add]
    simp only [scan_block]
    have harith : i + 1 + m1 = i + (m1 + 1) := by omega
    cases h : instAt cfg b i with
    | none => simp only; rw [ih, harith]
    | some inst =>
      cases ha : scan_action inst register with
      | copy src =>
        cases hr : resolve i src with
        | none => simp only [ha, hr, Option.bind]
        | some vs => simp only [ha, hr]; rw [ih, harith]
      | load v => simp only [ha]; rw [ih, harith]
      | skip => simp only [ha]; rw [ih, harith]

/-- A scan over a range containing no copy targeting the register never
fails (only a copy consults the recursive resolver). -/
theorem scan_block_no_copy (cfg : ControlFlowGraph) (b : Nat)
    (resolve : Nat → Int → Option ValueSet) (register : Int) (m : Nat) :
    ∀ i acc,
      (∀ k inst, i ≤ k → k < i + m → instAt cfg b k = some inst →
        ∀ src, scan_action inst register ≠ ScanAction.copy src) →
      ∃ a, scan_block cfg b resolve register m i acc = some a := by
  induction m with
  | zero => intro i acc _; exact ⟨acc, rfl⟩
  | succ m ih =>
    intro i acc h
    have hnext : ∀ k inst, i + 1 ≤ k → k < (i + 1) + m → instAt cfg b k = some inst →
        ∀ src, scan_action inst register ≠ ScanAction.copy src := by
      intro k inst hk1 hk2 hks src
      exact h k inst (by omega) (by omega) hks src
    simp only [scan_block]
    cases hi : instAt cfg b i with
    | none => exact ih (i + 1) acc hnext
    | some inst =>
      cases ha : scan_action inst register with
      | copy src => exact absurd ha (h i inst (by omega) (by omega) hi src)
      | load v => simp only [ha]; exact ih (i + 1) {v} hnext
      | skip => simp only [ha]; exact ih (i + 1) acc hnext

/-- A scan over a range in which no instruction resolves the register
returns the accumulated set unchanged. -/
theorem scan_block_all_skip (cfg : ControlFlowGraph) (b : Nat)
    (resolve : Nat → Int → Option ValueSet) (register : Int) (m : Nat) :
    ∀ i acc,
      (∀ k inst, i ≤ k → k < i + m → instAt cfg b k = some inst →
        scan_action inst register = ScanAction.skip) →
      scan_block cfg b resolve register m i acc = some acc := by
  induction m with
  | zero => intro i acc _; rfl
  | succ m ih =>
    intro i acc h
    have hnext : ∀ k inst, i + 1 ≤ k → k < (i + 1) + m → instAt cfg b k = some inst →
        scan_action inst register = ScanAction.skip := by
      intro k inst hk1 hk2 hks
      exact h k inst (by omega) (by omega) hks
    simp only [scan_block]
    cases hi : instAt cfg b i with
    | none => exact ih (i + 1) acc hnext
    | some inst =>
      cases ha : scan_action inst register with
      | copy src => exact absurd ha (by rw [h i inst (by omega) (by omega) hi]; simp)
      | load v =>
        exact absurd ha (by rw [h i inst (by omega) (by omega) hi]; simp)
      | skip => simp only [ha]; exact ih (i + 1) acc hnext

/-- When the nearest resolving instruction before the query point is a
direct immediate load of `v` into the register — no instruction after
it up to the query point resolves the register, and no earlier
instruction of the block is a copy targeting it (a copy re-enters the
recursion and may diverge) — find_value_set returns the singleton of
the loaded value. -/
theorem find_value_set_nearest_load (cfg : ControlFlowGraph) (b e : Nat) (register : Int)
    (j : Nat) (v : Int) (f : Nat) (inst : Instruction)
    (hstart : (blockAtL cfg.blocks b).start ≤ j) (hj : j < e)
    (hinst : instAt cfg b j = some inst)
    (hload : scan_action inst register = ScanAction.load v)
    (hafter : ∀ k inst', j < k → k < e → instAt cfg b k = some inst' →
      scan_action inst' register = ScanAction.skip)
    (hbefore : ∀ k inst', (blockAtL cfg.blocks b).start ≤ k → k < j →
      instAt cfg b k = some inst' → ∀ src, scan_action inst' register ≠ ScanAction.copy src) :
    find_value_set cfg (f + 1) b e register = some {v} := by
  obtain ⟨a, ha⟩ :=
    scan_block_no_copy cfg b (fun i src => find_value_set cfg f b i src) register
      (j - (blockAtL cfg.blocks b).start) (blockAtL cfg.blocks b).start ∅
      (fun k inst' hk1 hk2 hk3 src => hbefore k inst' hk1 (by omega) hk3 src)
  have h2 : scan_block cfg b (fun i src => find_value_set cfg f b i src) register
      ((e - (j + 1)) + 1) j a = some {v} := by
    have hstep : scan_block cfg b (fun i src => find_value_set cfg f b i src) register
        ((e - (j + 1)) + 1) j a
        = scan_block cfg b (fun i src => find_value_set cfg f b i src) register
          (e - (j + 1)) (j + 1) {v} := by
      simp only [scan_block, hinst, hload]
    rw [hstep]
    exact scan_block_all_skip cfg b _ register _ (j + 1) {v}
      (fun k inst' hk1 hk2 hk3 => hafter k inst' (by omega) (by omega) hk3)
  have hscan : scan_block cfg b (fun i src => find_value_set cfg f b i src) register
      (e - (blockAtL cfg.blocks b).start) (blockAtL cfg.blocks b).start ∅ = some {v} := by
    have hsplit : e - (blockAtL cfg.blocks b).start
        = (j - (blockAtL cfg.blocks b).start) + ((e - (j + 1)) + 1) := by omega
    rw [hsplit, scan_block_add, ha]
    have hloc : (blockAtL cfg.blocks b).start + (j - (blockAtL cfg.blocks b).start) = j := by
      omega
    simp only [Option.bind, hloc, h2]
  simp only [find_value_set, hscan]
  simp [Finset.singleton_ne_empty]

/-- C10: falling back to the predecessor union is decided by emptiness
of the accumulated set, not by the absence of a resolving instruction:
when the nearest resolving instruction before the query point is a
register-to-register copy whose source register resolves to the empty
set at the copy point, find_value_set returns the union over the
predecessor blocks, even when an earlier immediate load to the register
exists in the same block. -/
theorem find_value_set_empty_copy_falls_back (cfg : ControlFlowGraph) (b e : Nat)
    (register src : Int) (j : Nat) (f : Nat) (inst : Instruction)
    (hstart : (blockAtL cfg.blocks b).start ≤ j) (hj : j < e)
    (hinst : instAt cfg b j = some inst)
    (hcopy : scan_action inst register = ScanAction.copy src)
    (hafter : ∀ k inst', j < k → k < e → instAt cfg b k = some inst' →
      scan_action inst' register = ScanAction.skip)
    (hbefore : ∀ k inst', (blockAtL cfg.blocks b).start ≤ k → k < j →
      instAt cfg b k = some inst' → ∀ src', scan_action inst' register ≠ ScanAction.copy src')
    (hres : find_value_set cfg f b j src = some ∅) :
    find_value_set cfg (f + 1) b e register =
      union_preds (fun p => find_value_set cfg f p (blockAtL cfg.blocks p).end_ register)
        (from_list cfg b) ∅ := by
  obtain ⟨a, ha⟩ :=
    scan_block_no_copy cfg b (fun i src => find_value_set cfg f b i src) register
      (j - (blockAtL cfg.blocks b).start) (blockAtL cfg.blocks b).start ∅
      (fun k inst' hk1 hk2 hk3 src' => hbefore k inst' hk1 (by omega) hk3 src')
  have h2 : scan_block cfg b (fun i src => find_value_set cfg f b i src) register
      ((e - (j + 1)) + 1) j a = some ∅ := by
    have hstep : scan_block cfg b (fun i src => find_value_set cfg f b i src) register
        ((e - (j + 1)) + 1) j a
        = scan_block cfg b (fun i src => find_value_set cfg f b i src) register
          (e - (j + 1)) (j + 1) ∅ := by
      simp only [scan_block, hinst, hcopy, hres]
    rw [hstep]
    exact scan_block_all_skip cfg b _ register _ (j + 1) ∅
      (fun k inst' hk1 hk2 hk3 => hafter k inst' (by omega) (by omega) hk3)
  have hscan : scan_block cfg b (fun i src => find_value_set cfg f b i src) register
      (e - (blockAtL cfg.blocks b).start) (blockAtL cfg.blocks b).start ∅ = some ∅ := by
    have hsplit : e - (blockAtL cfg.blocks b).start
        = (j - (blockAtL cfg.blocks b).start) + ((e - (j + 1)) + 1) := by omega
    rw [hsplit, scan_block_add, ha]
    have hloc : (blockAtL cfg.blocks b).start + (j - (blockAtL cfg.blocks b).start) = j := by
      omega
    simp only [Option.bind, hloc, h2]
  simp only [find_value_set, hscan]
  simp

/-- Helper for the divergence proof: on the self-loop graph the
predecessor fallback of find_value_set re-enters the same block at
every fuel level, so every fuel is exhausted. -/
theorem find_value_set_loop_none (f : Nat) :
    find_value_set cfgLoop f 0 1 3 = none := by
  induction f with
  | zero => rfl
  | succ f ih =>
    have step : find_value_set cfgLoop (f + 1) 0 1 3 =
        union_preds (fun p => find_value_set cfgLoop f p (blockAtL cfgLoop.blocks p).end_ 3)
          [0] ∅ := rfl
    rw [step]
    show (match find_value_set cfgLoop f 0 (blockAtL cfgLoop.blocks 0).end_ 3 with
      | none => none
      | some vs =>
          union_preds
            (fun p => find_value_set cfgLoop f p (blockAtL cfgLoop.blocks p).end_ 3) [] (∅ ∪ vs)) =
        none
    have hend : (blockAtL cfgLoop.blocks 0).end_ = 1 := rfl
    rw [hend, ih]

/-- C2: the value-set analysis terminates on every control-flow graph,
including cyclic ones.  Refuted on the code: on the graph of a segment
that jumps to its own label, register_value_set queried at the jump
exhausts every recursion depth, because the predecessor fallback of
find_value_set re-enters the same block with no visited set — the
recursion of the source diverges. -/
theorem register_value_set_diverges_on_cycle :
    create_control_flow_graph 1 loopSegs = some cfgLoop ∧
    ∀ fuel, register_value_set cfgLoop fuel 0 0 3 = none := by
  refine ⟨rfl, fun fuel => ?_⟩
  match fuel with
  | 0 => rfl
  | f + 1 =>
    have step : register_value_set cfgLoop (f + 1) 0 0 3 =
        union_preds (fun p => find_value_set cfgLoop f p (blockAtL cfgLoop.blocks p).end_ 3)
          [0] ∅ := rfl
    rw [step]
    show (match find_value_set cfgLoop f 0 (blockAtL cfgLoop.blocks 0).end_ 3 with
      | none => none
      | some vs =>
          union_preds
            (fun p => find_value_set cfgLoop f p (blockAtL cfgLoop.blocks p).end_ 3) [] (∅ ∪ vs)) =
        none
    have hend : (blockAtL cfgLoop.blocks 0).end_ = 1 := rfl
    rw [hend, find_value_set_loop_none]

/-- Helper for the return-linking divergence proof: walking the branch
labels of the recursive call block revisits that block at every fuel
level, so every recursion-depth bound is exceeded. -/
theorem link_returning_blocks_rec_none (f : Nat) :
    ∀ E, link_returning_blocks (label_map recSegs) (all_blocks recSegs) 1 f [0] E = none := by
  induction f with
  | zero => intro E; rfl
  | succ f ih =>
    intro E
    have step : link_returning_blocks (label_map recSegs) (all_blocks recSegs) 1 (f + 1) [0] E =
        (match link_returning_blocks (label_map recSegs) (all_blocks recSegs) 1 f [0] E with
          | none => none
          | some E2 =>
              link_returning_blocks (label_map recSegs) (all_blocks recSegs) 1 f [] E2) := rfl
    rw [step, ih]

/-- C3: the return-linking walk of the control-flow-graph builder is
guarded against revisiting a block, so construction terminates on
recursive subroutines.  Refuted on the code: the walk carries no
visited set, and on a segment whose call targets its own label
create_control_flow_graph exhausts every recursion depth — the source
recursion diverges. -/
theorem create_control_flow_graph_diverges_on_recursion :
    ∀ fuel, create_control_flow_graph fuel recSegs = none := by
  intro fuel
  have step : create_control_flow_graph fuel recSegs =
      ((match link_returning_blocks (label_map recSegs) (all_blocks recSegs) 1 fuel [0]
          (link_main (label_map recSegs) (all_blocks recSegs)).1 with
        | none => none
        | some E2 =>
            run_callers (label_map recSegs) (all_blocks recSegs) fuel [] E2)).map
        (fun E => ⟨recSegs, all_blocks recSegs, label_map recSegs,
          (link_main (label_map recSegs) (all_blocks recSegs)).2, E⟩) := rfl
  rw [step, link_returning_blocks_rec_none]
  rfl

/-- C4 (counterexample): register_value_set does not match the spec's
backward-scan reference definition.  On cfgCex, queried at the ret of
the second segment for register r2, the backward reference resolves the
nearest resolver — the copy let r2, r3 — to the empty set and stops,
while the code, finding its accumulated set empty after the forward
scan, falls back to the predecessor union and answers {7}. -/
theorem register_value_set_differs_from_backward_reference :
    create_control_flow_graph 1 cexSegs = some cfgCex ∧
    register_value_set cfgCex 10 1 2 2 = some {7} ∧
    spec_register_value_set cfgCex 10 1 2 2 = some ∅ ∧
    register_value_set cfgCex 10 1 2 2 ≠ spec_register_value_set cfgCex 10 1 2 2 :=
  ⟨rfl, by decide, by decide, by decide⟩

/-- C4 (amended): register_value_set follows the code's forward scan —
the nearest direct immediate load before the query point yields a
singleton set when no later instruction of the range resolves the
register and no earlier instruction of the block is a copy targeting
it, and the union over the predecessors is taken exactly when the set
accumulated by the scan is empty.  In particular, queried immediately
after leti r0, 5 the result is {5}, and at the entry of a join block
whose two predecessors assign r2 := 1 and r2 := 2 (with no assignment
to r2 in the join block) the result is {1, 2}. -/
theorem register_value_set_forward_scan_semantics :
    (∀ (cfg : ControlFlowGraph) (b e : Nat) (register : Int) (j : Nat) (v : Int) (f : Nat)
      (inst : Instruction),
      (blockAtL cfg.blocks b).start ≤ j → j < e →
      instAt cfg b j = some inst →
      scan_action inst register = ScanAction.load v →
      (∀ k inst', j < k → k < e → instAt cfg b k = some inst' →
        scan_action inst' register = ScanAction.skip) →
      (∀ k inst', (blockAtL cfg.blocks b).start ≤ k → k < j →
        instAt cfg b k = some inst' → ∀ src, scan_action inst' register ≠ ScanAction.copy src) →
      find_value_set cfg (f + 1) b e register = some {v}) ∧
    (create_control_flow_graph 1 ex1Segs = some cfgEx1 ∧
      register_value_set cfgEx1 10 0 1 0 = some {5}) ∧
    (create_control_flow_graph 1 joinSegs = some cfgJoin ∧
      register_value_set cfgJoin 10 2 0 2 = some {1, 2}) :=
  ⟨fun cfg b e register j v f inst h1 h2 h3 h4 h5 h6 =>
      find_value_set_nearest_load cfg b e register j v f inst h1 h2 h3 h4 h5 h6,
    ⟨rfl, by decide⟩, ⟨rfl, by decide⟩⟩

/-- Witness for the amended C4 theorem: its general part applied to the
concrete first worked example. -/
theorem register_value_set_forward_scan_semantics_witness :
    find_value_set cfgEx1 9 0 1 0 = some {5} :=
  register_value_set_forward_scan_semantics.1 cfgEx1 0 1 0 0 5 8 ⟨.leti, [0, 5], none⟩
    (by decide) (by decide) (by decide) (by decide)
    (by intro k inst' h1 h2 _; omega)
    (by intro k inst' h1 h2 _ src; omega)

/-- Witness for the C10 theorem: applied to cfgCex, where the copy
let r2, r3 resolves to the empty set, the query after the copy falls
back to the predecessor union, although r2 := 5 was loaded earlier in
the same block. -/
theorem find_value_set_empty_copy_falls_back_witness :
    find_value_set cfgCex 10 1 2 2 =
      union_preds (fun p => find_value_set cfgCex 9 p (blockAtL cfgCex.blocks p).end_ 2)
        (from_list cfgCex 1) ∅ :=
  find_value_set_empty_copy_falls_back cfgCex 1 2 2 3 1 9 ⟨.op_let, [2, 3], none⟩
    (by decide) (by decide) (by decide) (by decide)
    (by intro k inst' h1 h2 _; omega)
    (by
      intro k inst' h1 h2 hk src'
      have hk0 : k = 0 := by omega
      subst hk0
      have h0 : instAt cfgCex 1 0 = some ⟨.leti, [2, 5], none⟩ := by decide
      rw [h0] at hk
      injection hk with hinj
      rw [← hinj]
      simp [scan_action, argI])
    (by decide)

/-! Structure of the built graph. -/

/-- Destructuring a successful graph construction: every field except
the edges is determined directly by the segment list, and the edges are
the output of the return-linking phase. -/
theorem create_cfg_inv (fuel : Nat) (segs : List InstructionSegment) (cfg : ControlFlowGraph)
    (h : create_control_flow_graph fuel segs = some cfg) :
    cfg.segments = segs ∧ cfg.blocks = all_blocks segs ∧ cfg.labels = label_map segs ∧
    cfg.callers = (link_main (label_map segs) (all_blocks segs)).2 ∧
    run_callers (label_map segs) (all_blocks segs) fuel
      (link_main (label_map segs) (all_blocks segs)).2
      (link_main (label_map segs) (all_blocks segs)).1 = some cfg.edges := by
  simp only [create_control_flow_graph] at h
  cases hr : run_callers (label_map segs) (all_blocks segs) fuel
      (link_main (label_map segs) (all_blocks segs)).2
      (link_main (label_map segs) (all_blocks segs)).1 with
  | none => rw [hr] at h; simp at h
  | some E =>
    rw [hr] at h
    simp only [Option.map_some', Option.some_inj] at h
    subst h
    exact ⟨rfl, rfl, rfl, rfl, rfl⟩

/-- Every instruction in last position closes a block: the default case
of the classification switch returns a block there. -/
theorem classify_isSome_last (inst : Instruction) : (classify inst true).isSome := by
  cases h : inst.opcode <;> simp [classify, h]

/-- Only a non-final non-branching instruction continues the scan. -/
theorem classify_none_not_last {inst : Instruction} {b : Bool}
    (h : classify inst b = none) : b = false := by
  cases b with
  | false => rfl
  | true =>
    have hs := classify_isSome_last inst
    rw [h] at hs
    simp at hs

/-- The block-splitting loop tiles the remaining index range. -/
theorem create_basic_blocks_aux_tiles (s : Nat) (insts : List Instruction) :
    ∀ n start i, n + i = insts.length → start ≤ i →
      (i = insts.length → start = insts.length) →
      tiles (create_basic_blocks_aux s insts n start i) start insts.length := by
  intro n
  induction n with
  | zero =>
    intro start i h1 h2 h3
    have hs : start = insts.length := h3 (by omega)
    simp [create_basic_blocks_aux, tiles, hs]
  | succ n ih =>
    intro start i h1 h2 h3
    have hi : i < insts.length := by omega
    have hinst : insts.get? i = some (insts.get ⟨i, hi⟩) := List.get?_eq_get hi
    simp only [create_basic_blocks_aux, hinst]
    cases hcl : classify (insts.get ⟨i, hi⟩) (i + 1 == insts.length) with
    | some p =>
      obtain ⟨bt, labels⟩ := p
      refine ⟨rfl, ?_, ih (i + 1) (i + 1) (by omega) le_rfl (fun h => h)⟩
      show start < i + 1
      omega
    | none =>
      have hlast : (i + 1 == insts.length) = false := classify_none_not_last hcl
      have hne : i + 1 ≠ insts.length := by simpa using hlast
      exact ih start (i + 1) (by omega) (by omega) (fun hcon => absurd hcon hne)

/-- The blocks of one segment tile its instruction indices. -/
theorem create_basic_blocks_tiles (s : Nat) (insts : List Instruction) :
    tiles (create_basic_blocks s insts) 0 insts.length :=
  create_basic_blocks_aux_tiles s insts insts.length 0 0 (by omega) (by omega)
    (fun h => by omega)

theorem tiles_le {g : List BasicBlock} : ∀ {a c : Nat}, tiles g a c → a ≤ c := by
  induction g with
  | nil => intro a c h; exact le_of_eq h
  | cons blk rest ih =>
    intro a c h
    obtain ⟨h1, h2, h3⟩ := h
    have := ih h3
    omega

/-- Every block of a tiling is a nonempty interval inside [a, c). -/
theorem tiles_bounds {g : List BasicBlock} : ∀ {a c : Nat}, tiles g a c →
    ∀ blk ∈ g, a ≤ blk.start ∧ blk.start < blk.end_ ∧ blk.end_ ≤ c := by
  induction g with
  | nil => intro a c _ blk hblk; cases hblk
  | cons b0 rest ih =>
    intro a c h blk hblk
    obtain ⟨h1, h2, h3⟩ := h
    rcases List.mem_cons.mp hblk with rfl | hmem
    · exact ⟨by omega, by omega, tiles_le h3⟩
    · have hb := ih h3 blk hmem
      exact ⟨by omega, hb.2.1, hb.2.2⟩

/-- Every index in a tiled range lies in exactly one block of the
tiling. -/
theorem tiles_count {idx : Nat} {g : List BasicBlock} : ∀ {a c : Nat}, tiles g a c →
    a ≤ idx → idx < c →
    (g.filter (fun blk => decide (blk.start ≤ idx) && decide (idx < blk.end_))).length = 1 := by
  induction g with
  | nil =>
    intro a c h h1 h2
    have hac : a = c := h
    omega
  | cons b0 rest ih =>
    intro a c h h1 h2
    obtain ⟨hs, hlt, ht⟩ := h
    by_cases hidx : idx < b0.end_
    · have hhead : (decide (b0.start ≤ idx) && decide (idx < b0.end_)) = true := by
        simp only [Bool.and_eq_true, decide_eq_true_eq]
        exact ⟨by omega, hidx⟩
      have hrest : rest.filter
          (fun blk => decide (blk.start ≤ idx) && decide (idx < blk.end_)) = [] := by
        rw [List.filter_eq_nil_iff]
        intro blk hblk
        have hb := tiles_bounds ht blk hblk
        simp only [Bool.and_eq_true, decide_eq_true_eq, not_and]
        intro hc
        omega
      rw [List.filter_cons, hhead]
      simp [hrest]
    · have hhead : (decide (b0.start ≤ idx) && decide (idx < b0.end_)) = false := by
        simp only [Bool.and_eq_false_iff, decide_eq_false_iff_not]
        right
        omega
      rw [List.filter_cons, hhead]
      simpa using ih ht (by omega) h2

/-- Blocks created for a segment carry that segment's index. -/
theorem create_basic_blocks_aux_seg_idx (s : Nat) (insts : List Instruction) :
    ∀ n start i blk, blk ∈ create_basic_blocks_aux s insts n start i → blk.seg_idx = s := by
  intro n
  induction n with
  | zero => intro start i blk hblk; cases hblk
  | succ n ih =>
    intro start i blk hblk
    cases hinst : insts.get? i with
    | none => simp only [create_basic_blocks_aux, hinst] at hblk; cases hblk
    | some inst =>
      simp only [create_basic_blocks_aux, hinst] at hblk
      cases hcl : classify inst (i + 1 == insts.length) with
      | some p =>
        obtain ⟨bt, labels⟩ := p
        simp only [hcl] at hblk
        rcases List.mem_cons.mp hblk with rfl | hmem
        · rfl
        · exact ih (i + 1) (i + 1) blk hmem
      | none =>
        simp only [hcl] at hblk
        exact ih start (i + 1) blk hblk

/-- Blocks of the tail segments carry larger segment indices. -/
theorem all_blocks_aux_seg_idx_ge :
    ∀ (segs : List InstructionSegment) (s0 : Nat) (blk : BasicBlock),
      blk ∈ all_blocks_aux s0 segs → s0 ≤ blk.seg_idx := by
  intro segs
  induction segs with
  | nil => intro s0 blk hblk; cases hblk
  | cons seg0 rest ih =>
    intro s0 blk hblk
    rcases List.mem_append.mp hblk with hmem | hmem
    · exact le_of_eq (create_basic_blocks_aux_seg_idx s0 seg0.instructions _ 0 0 blk hmem).symm
    · have := ih (s0 + 1) blk hmem
      omega

/-- Each instruction position of each segment is contained in exactly
one block of the graph's block list. -/
theorem all_blocks_aux_count :
    ∀ (segs : List InstructionSegment) (s0 s : Nat) (seg : InstructionSegment) (idx : Nat),
      segs.get? s = some seg → idx < seg.instructions.length →
      ((all_blocks_aux s0 segs).filter (fun blk =>
        blk.seg_idx == s0 + s && decide (blk.start ≤ idx) && decide (idx < blk.end_))).length
        = 1 := by
  intro segs
  induction segs with
  | nil => intro s0 s seg idx h; cases s <;> simp at h
  | cons seg0 rest ih =>
    intro s0 s seg idx hget hidx
    simp only [all_blocks_aux, List.filter_append, List.length_append]
    cases s with
    | zero =>
      have hseg : seg0 = seg := by simpa using hget
      subst hseg
      have hhead : (create_basic_blocks s0 seg0.instructions).filter (fun blk =>
            blk.seg_idx == s0 + 0 && decide (blk.start ≤ idx) && decide (idx < blk.end_))
          = (create_basic_blocks s0 seg0.instructions).filter (fun blk =>
            decide (blk.start ≤ idx) && decide (idx < blk.end_)) := by
        apply List.filter_congr
        intro blk hblk
        have hsi : blk.seg_idx = s0 :=
          create_basic_blocks_aux_seg_idx s0 seg0.instructions _ 0 0 blk hblk
        simp [hsi]
      have htail : (all_blocks_aux (s0 + 1) rest).filter (fun blk =>
          blk.seg_idx == s0 + 0 && decide (blk.start ≤ idx) && decide (idx < blk.end_)) = [] := by
        rw [List.filter_eq_nil_iff]
        intro blk hblk
        have := all_blocks_aux_seg_idx_ge rest (s0 + 1) blk hblk
        simp only [Bool.and_eq_true, beq_iff_eq, decide_eq_true_eq, not_and]
        intro hc
        omega
      rw [hhead, htail]
      have := tiles_count (create_basic_blocks_tiles s0 seg0.instructions)
        (Nat.zero_le idx) hidx
      simpa using this
    | succ s' =>
      have hget' : rest.get? s' = some seg := by simpa using hget
      have hhead : (create_basic_blocks s0 seg0.instructions).filter (fun blk =>
          blk.seg_idx == s0 + (s' + 1) && decide (blk.start ≤ idx) && decide (idx < blk.end_))
          = [] := by
        rw [List.filter_eq_nil_iff]
        intro blk hblk
        have hsi : blk.seg_idx = s0 :=
          create_basic_blocks_aux_seg_idx s0 seg0.instructions _ 0 0 blk hblk
        simp only [Bool.and_eq_true, beq_iff_eq, decide_eq_true_eq, not_and]
        intro hc
        omega
      rw [hhead]
      have harith : s0 + (s' + 1) = (s0 + 1) + s' := by omega
      rw [harith]
      simpa using ih (s0 + 1) s' seg idx hget' hidx

/-- Every block is a nonempty interval lying inside the instruction
list of the segment it names. -/
theorem all_blocks_aux_bounds :
    ∀ (segs : List InstructionSegment) (s0 : Nat) (blk : BasicBlock),
      blk ∈ all_blocks_aux s0 segs →
      blk.start < blk.end_ ∧
        ∃ seg, segs.get? (blk.seg_idx - s0) = some seg ∧
          blk.end_ ≤ seg.instructions.length := by
  intro segs
  induction segs with
  | nil => intro s0 blk hblk; cases hblk
  | cons seg0 rest ih =>
    intro s0 blk hblk
    rcases List.mem_append.mp hblk with hmem | hmem
    · have hsi : blk.seg_idx = s0 :=
        create_basic_blocks_aux_seg_idx s0 seg0.instructions _ 0 0 blk hmem
      have hb := tiles_bounds (create_basic_blocks_tiles s0 seg0.instructions) blk hmem
      refine ⟨hb.2.1, seg0, ?_, hb.2.2⟩
      rw [hsi]
      simp
    · have hge := all_blocks_aux_seg_idx_ge rest (s0 + 1) blk hmem
      obtain ⟨hlt, seg, hseg, hbound⟩ := ih (s0 + 1) blk hmem
      refine ⟨hlt, seg, ?_, hbound⟩
      have harith : blk.seg_idx - s0 = (blk.seg_idx - (s0 + 1)) + 1 := by omega
      rw [harith]
      simpa using hseg

/-- C6: block-partition invariant — in every graph built from a
segment list, each instruction position of each input segment is
contained in exactly one basic block, and each basic block is a
nonempty contiguous index interval lying within the single segment it
belongs to. -/
theorem cfg_block_partition (fuel : Nat) (segs : List InstructionSegment)
    (cfg : ControlFlowGraph) (h : create_control_flow_graph fuel segs = some cfg) :
    (∀ s seg idx, segs.get? s = some seg → idx < seg.instructions.length →
      (cfg.blocks.filter (fun blk =>
        blk.seg_idx == s && decide (blk.start ≤ idx) && decide (idx < blk.end_))).length = 1) ∧
    (∀ blk ∈ cfg.blocks, blk.start < blk.end_ ∧
      ∃ seg, segs.get? blk.seg_idx = some seg ∧ blk.end_ ≤ seg.instructions.length) := by
  have hblocks : cfg.blocks = all_blocks segs := (create_cfg_inv fuel segs cfg h).2.1
  constructor
  · intro s seg idx hget hidx
    rw [hblocks]
    have := all_blocks_aux_count segs 0 s seg idx hget hidx
    simpa using this
  · intro blk hblk
    rw [hblocks] at hblk
    have := all_blocks_aux_bounds segs 0 blk hblk
    simpa using this

/-- Witness for the C6 theorem: the partition invariant instantiated on
the concrete join-example graph. -/
theorem cfg_block_partition_witness :
    (∀ s seg idx, joinSegs.get? s = some seg → idx < seg.instructions.length →
      (cfgJoin.blocks.filter (fun blk =>
        blk.seg_idx == s && decide (blk.start ≤ idx) && decide (idx < blk.end_))).length = 1) ∧
    (∀ blk ∈ cfgJoin.blocks, blk.start < blk.end_ ∧
      ∃ seg, joinSegs.get? blk.seg_idx = some seg ∧ blk.end_ ≤ seg.instructions.length) :=
  cfg_block_partition 1 joinSegs cfgJoin rfl

/-! Edge structure of the linking phase. -/

/-- The second components of the label edges of a block are the
resolvable label targets. -/
theorem map_snd_filterMap (lbs : List (Int × Nat)) (i : Nat) :
    ∀ labels : List Int,
      (labels.filterMap (fun l => (lb_get lbs l).map (fun t => (i, t)))).map
        (fun p => p.2) = labels.filterMap (lb_get lbs) := by
  intro labels
  induction labels with
  | nil => rfl
  | cons l rest ih =>
    cases h : lb_get lbs l with
    | none => simp [List.filterMap_cons, h, ih]
    | some t => simp [List.filterMap_cons, h, ih]

/-- Label edges all leave from the block being linked. -/
theorem mem_label_edges {lbs : List (Int × Nat)} {i : Nat} {labels : List Int} {p : Nat × Nat}
    (hp : p ∈ labels.filterMap (fun l => (lb_get lbs l).map (fun t => (i, t)))) : p.1 = i := by
  rcases List.mem_filterMap.mp hp with ⟨l, _, hl⟩
  rcases Option.map_eq_some'.mp hl with ⟨t, _, hpt⟩
  rw [← hpt]

/-- Every edge appended by iteration `i` of the main linking loop
leaves from block `i`. -/
theorem link_step_fst_sources (lbs : List (Int × Nat)) (n i : Nat) (blk : BasicBlock) :
    ∀ p ∈ (link_step lbs n i blk).1, p.1 = i := by
  intro p hp
  cases h : blk.branch_type with
  | Return => simp only [link_step, h] at hp; cases hp
  | Jump => simp only [link_step, h] at hp; exact mem_label_edges hp
  | Call => simp only [link_step, h] at hp; exact mem_label_edges hp
  | None =>
    simp only [link_step, h] at hp
    rcases List.mem_append.mp hp with hmem | hmem
    · by_cases hn : i + 1 < n
      · rw [if_pos hn] at hmem
        rw [List.mem_singleton.mp hmem]
      · rw [if_neg hn] at hmem
        cases hmem
    · exact mem_label_edges hmem
  | ConditionalJump =>
    simp only [link_step, h] at hp
    rcases List.mem_append.mp hp with hmem | hmem
    · by_cases hn : i + 1 < n
      · rw [if_pos hn] at hmem
        rw [List.mem_singleton.mp hmem]
      · rw [if_neg hn] at hmem
        cases hmem
    · exact mem_label_edges hmem

/-- Every caller pair recorded by iteration `i` of the main linking
loop names block `i` as the caller. -/
theorem link_step_snd_sources (lbs : List (Int × Nat)) (n i : Nat) (blk : BasicBlock) :
    ∀ p ∈ (link_step lbs n i blk).2, p.1 = i := by
  intro p hp
  cases h : blk.branch_type with
  | Return => simp only [link_step, h] at hp; cases hp
  | Jump => simp only [link_step, h] at hp; cases hp
  | None => simp only [link_step, h] at hp; cases hp
  | ConditionalJump => simp only [link_step, h] at hp; cases hp
  | Call =>
    simp only [link_step, h] at hp
    by_cases hn : i + 1 < n
    · rw [if_pos hn] at hp
      rw [List.mem_singleton.mp hp]
    · rw [if_neg hn] at hp
      cases hp

/-- Pairs produced by groups of the enumeration from `s` onward carry
indices at least `s`. -/
theorem mem_flatten_enumFrom_ge (f : Nat → BasicBlock → List (Nat × Nat))
    (hf : ∀ j b p, p ∈ f j b → p.1 = j) :
    ∀ (blocks : List BasicBlock) (s : Nat) (p : Nat × Nat),
      p ∈ ((List.enumFrom s blocks).map (fun q => f q.1 q.2)).flatten → s ≤ p.1 := by
  intro blocks
  induction blocks with
  | nil => intro s p hp; simp [List.enumFrom] at hp
  | cons b0 rest ih =>
    intro s p hp
    simp only [List.enumFrom, List.map_cons, List.flatten_cons] at hp
    rcases List.mem_append.mp hp with hmem | hmem
    · exact le_of_eq (hf s b0 p hmem).symm
    · have := ih (s + 1) p hmem
      omega

/-- Filtering the concatenated per-iteration groups by a source index
selects exactly that iteration's group. -/
theorem filter_flatten_enumFrom (f : Nat → BasicBlock → List (Nat × Nat))
    (hf : ∀ j b p, p ∈ f j b → p.1 = j) :
    ∀ (blocks : List BasicBlock) (s i : Nat) (blk : BasicBlock), blocks.get? i = some blk →
      ((List.enumFrom s blocks).map (fun q => f q.1 q.2)).flatten.filter
          (fun p => p.1 == s + i) = f (s + i) blk := by
  intro blocks
  induction blocks with
  | nil => intro s i blk h; simp at h
  | cons b0 rest ih =>
    intro s i blk hget
    simp only [List.enumFrom, List.map_cons, List.flatten_cons, List.filter_append]
    cases i with
    | zero =>
      have hb : b0 = blk := by simpa using hget
      subst hb
      have hhead : (f s b0).filter (fun p => p.1 == s + 0) = f s b0 := by
        rw [List.filter_eq_self]
        intro p hp
        simp [hf s b0 p hp]
      have htail : ((List.enumFrom (s + 1) rest).map (fun q => f q.1 q.2)).flatten.filter
          (fun p => p.1 == s + 0) = [] := by
        rw [List.filter_eq_nil_iff]
        intro p hp
        have := mem_flatten_enumFrom_ge f hf rest (s + 1) p hp
        simp only [beq_iff_eq]
        omega
      rw [hhead, htail, List.append_nil, Nat.add_zero]
    | succ i' =>
      have hget' : rest.get? i' = some blk := by simpa using hget
      have hhead : (f s b0).filter (fun p => p.1 == s + (i' + 1)) = [] := by
        rw [List.filter_eq_nil_iff]
        intro p hp
        have := hf s b0 p hp
        simp only [beq_iff_eq]
        omega
      have harith : s + (i' + 1) = (s + 1) + i' := by omega
      rw [hhead, List.nil_append, harith]
      exact ih (s + 1) i' blk hget'

/-- The successor list a block receives from the main linking loop is
exactly its own iteration's edge group. -/
theorem link_main_out_edges (lbs : List (Int × Nat)) (blocks : List BasicBlock)
    (i : Nat) (blk : BasicBlock) (hget : blocks.get? i = some blk) :
    out_edges (link_main lbs blocks).1 i =
      ((link_step lbs blocks.length i blk).1).map (fun p => p.2) := by
  have hfl := filter_flatten_enumFrom (fun j b => (link_step lbs blocks.length j b).1)
    (fun j b p hp => link_step_fst_sources lbs blocks.length j b p hp) blocks 0 i blk hget
  simp only [Nat.zero_add] at hfl
  unfold out_edges link_main
  rw [show (List.enum blocks) = List.enumFrom 0 blocks from rfl, hfl]

/-- The caller pairs naming block `i` recorded by the main linking loop
are exactly its own iteration's pairs. -/
theorem link_main_callers_filter (lbs : List (Int × Nat)) (blocks : List BasicBlock)
    (i : Nat) (blk : BasicBlock) (hget : blocks.get? i = some blk) :
    ((link_main lbs blocks).2).filter (fun p => p.1 == i) =
      (link_step lbs blocks.length i blk).2 := by
  have hfl := filter_flatten_enumFrom (fun j b => (link_step lbs blocks.length j b).2)
    (fun j b p hp => link_step_snd_sources lbs blocks.length j b p hp) blocks 0 i blk hget
  simp only [Nat.zero_add] at hfl
  unfold link_main
  rw [show (List.enum blocks) = List.enumFrom 0 blocks from rfl, hfl]

/-- The return-linking walk only appends edges; every edge it appends
leaves from a Return block. -/
theorem link_returning_blocks_extends (lbs : List (Int × Nat)) (blocks : List BasicBlock)
    (ret : Nat) :
    ∀ (f : Nat) (labels : List Int) (E E' : List (Nat × Nat)),
      link_returning_blocks lbs blocks ret f labels E = some E' →
      ∃ add, E' = E ++ add ∧
        ∀ p ∈ add, (blockAtL blocks p.1).branch_type = BranchType.Return := by
  intro f
  induction f with
  | zero =>
    intro labels E E' h
    simp [link_returning_blocks] at h
  | succ f ih =>
    intro labels E E' h
    cases labels with
    | nil =>
      simp only [link_returning_blocks, Option.some_inj] at h
      subst h
      exact ⟨[], (List.append_nil E).symm, fun p hp => absurd hp (List.not_mem_nil p)⟩
    | cons l rest =>
      simp only [link_returning_blocks] at h
      cases hl : lb_get lbs l with
      | none =>
        simp only [hl] at h
        exact ih rest E E' h
      | some sb =>
        simp only [hl] at h
        cases hsub : link_returning_blocks lbs blocks ret f (blockAtL blocks sb).branch_labels
            (if (blockAtL blocks sb).branch_type = BranchType.Return
              then E ++ [(sb, ret)] else E) with
        | none => simp only [hsub] at h; cases h
        | some E2 =>
          simp only [hsub] at h
          obtain ⟨add1, h1, hret1⟩ := ih _ _ _ hsub
          obtain ⟨add2, h2, hret2⟩ := ih rest E2 E' h
          refine ⟨(if (blockAtL blocks sb).branch_type = BranchType.Return
              then [(sb, ret)] else []) ++ add1 ++ add2, ?_, ?_⟩
          · rw [h2, h1]
            by_cases hbt : (blockAtL blocks sb).branch_type = BranchType.Return
            · simp [hbt, List.append_assoc]
            · simp [hbt, List.append_assoc]
          · intro p hp
            rcases List.mem_append.mp hp with hp' | hp2
            · rcases List.mem_append.mp hp' with hp0 | hp1
              · by_cases hbt : (blockAtL blocks sb).branch_type = BranchType.Return
                · rw [if_pos hbt] at hp0
                  rw [List.mem_singleton.mp hp0]
                  exact hbt
                · rw [if_neg hbt] at hp0
                  cases hp0
              · exact hret1 p hp1
            · exact hret2 p hp2

/-- The return-linking phase only appends edges leaving from Return
blocks. -/
theorem run_callers_extends (lbs : List (Int × Nat)) (blocks : List BasicBlock) (fuel : Nat) :
    ∀ (callers : List (Nat × Nat)) (E E' : List (Nat × Nat)),
      run_callers lbs blocks fuel callers E = some E' →
      ∃ add, E' = E ++ add ∧
        ∀ p ∈ add, (blockAtL blocks p.1).branch_type = BranchType.Return := by
  intro callers
  induction callers with
  | nil =>
    intro E E' h
    simp only [run_callers, Option.some_inj] at h
    subst h
    exact ⟨[], (List.append_nil E).symm, fun p hp => absurd hp (List.not_mem_nil p)⟩
  | cons c rest ih =>
    intro E E' h
    obtain ⟨caller, ret⟩ := c
    simp only [run_callers] at h
    cases hl : link_returning_blocks lbs blocks ret fuel (blockAtL blocks caller).branch_labels
        E with
    | none => simp only [hl] at h; cases h
    | some E2 =>
      simp only [hl] at h
      obtain ⟨add1, h1, hret1⟩ := link_returning_blocks_extends lbs blocks ret fuel _ E E2 hl
      obtain ⟨add2, h2, hret2⟩ := ih E2 E' h
      refine ⟨add1 ++ add2, ?_, ?_⟩
      · rw [h2, h1, List.append_assoc]
      · intro p hp
        exact (List.mem_append.mp hp).elim (hret1 p) (hret2 p)

theorem out_edges_append (E1 E2 : List (Nat × Nat)) (i : Nat) :
    out_edges (E1 ++ E2) i = out_edges E1 i ++ out_edges E2 i := by
  simp [out_edges, List.filter_append]

/-- A block that is not a Return block receives no successors from a
list of edges that all leave from Return blocks. -/
theorem out_edges_ret_sources_nil (blocks : List BasicBlock) (add : List (Nat × Nat)) (i : Nat)
    (hadd : ∀ p ∈ add, (blockAtL blocks p.1).branch_type = BranchType.Return)
    (hi : (blockAtL blocks i).branch_type ≠ BranchType.Return) :
    out_edges add i = [] := by
  unfold out_edges
  have hfil : add.filter (fun p => p.1 == i) = [] := by
    rw [List.filter_eq_nil_iff]
    intro p hp
    simp only [beq_iff_eq]
    intro hpi
    apply hi
    rw [← hpi]
    exact hadd p hp
  rw [hfil]
  rfl

theorem blockAtL_eq {blocks : List BasicBlock} {i : Nat} {blk : BasicBlock}
    (h : blocks.get? i = some blk) : blockAtL blocks i = blk := by
  unfold blockAtL
  rw [List.getD_eq_getElem?_getD, ← List.get?_eq_getElem?, h]
  rfl

/-- C5: edge-linking rules — in every graph returned by
create_control_flow_graph, a None or ConditionalJump block's successor
list is the physically next block (when one exists) followed by its
resolvable label targets; a Jump block's successor list is exactly its
resolvable label targets, with no fallthrough; and a Call block's
successor list is exactly its resolvable targets' entry blocks, with
the pair (call block, following block) recorded for return linking. -/
theorem cfg_edge_rules (fuel : Nat) (segs : List InstructionSegment) (cfg : ControlFlowGraph)
    (i : Nat) (blk : BasicBlock) (h : create_control_flow_graph fuel segs = some cfg)
    (hblk : cfg.blocks.get? i = some blk) :
    ((blk.branch_type = BranchType.None ∨ blk.branch_type = BranchType.ConditionalJump) →
      out_edges cfg.edges i =
        (if i + 1 < cfg.blocks.length then [i + 1] else []) ++
          resolved_targets cfg.labels blk.branch_labels) ∧
    (blk.branch_type = BranchType.Jump →
      out_edges cfg.edges i = resolved_targets cfg.labels blk.branch_labels) ∧
    (blk.branch_type = BranchType.Call →
      out_edges cfg.edges i = resolved_targets cfg.labels blk.branch_labels ∧
      (i + 1 < cfg.blocks.length → (i, i + 1) ∈ cfg.callers)) := by
  obtain ⟨hsegs, hblocks, hlbs, hcallers, hrun⟩ := create_cfg_inv fuel segs cfg h
  have hget : (all_blocks segs).get? i = some blk := hblocks ▸ hblk
  have hbat : blockAtL (all_blocks segs) i = blk := blockAtL_eq hget
  have hmain := link_main_out_edges (label_map segs) (all_blocks segs) i blk hget
  obtain ⟨add, hE, hret⟩ := run_callers_extends (label_map segs) (all_blocks segs) fuel _ _ _
    hrun
  have hout : ∀ hbt : blk.branch_type ≠ BranchType.Return,
      out_edges cfg.edges i =
        ((link_step (label_map segs) (all_blocks segs).length i blk).1).map (fun p => p.2) := by
    intro hbt
    have hadd0 : out_edges add i = [] :=
      out_edges_ret_sources_nil (all_blocks segs) add i hret (by rw [hbat]; exact hbt)
    have hcfgE : cfg.edges = (link_main (label_map segs) (all_blocks segs)).1 ++ add := hE
    rw [hcfgE, out_edges_append, hadd0, List.append_nil, hmain]
  have hlen : cfg.blocks.length = (all_blocks segs).length := by rw [hblocks]
  refine ⟨?_, ?_, ?_⟩
  · intro hcase
    have hbt : blk.branch_type ≠ BranchType.Return := by
      rcases hcase with hc | hc <;> rw [hc] <;> intro hfalse <;> cases hfalse
    rw [hout hbt, hlen, hlbs]
    rcases hcase with hc | hc <;>
      · simp only [link_step, hc, List.map_append, map_snd_filterMap]
        apply congrArg (· ++ resolved_targets (label_map segs) blk.branch_labels)
        by_cases hn : i + 1 < (all_blocks segs).length
        · rw [if_pos hn, if_pos hn]
          rfl
        · rw [if_neg hn, if_neg hn]
          rfl
  · intro hcase
    have hbt : blk.branch_type ≠ BranchType.Return := by rw [hcase]; intro hf; cases hf
    rw [hout hbt, hlbs]
    simp only [link_step, hcase, map_snd_filterMap]
    rfl
  · intro hcase
    have hbt : blk.branch_type ≠ BranchType.Return := by rw [hcase]; intro hf; cases hf
    constructor
    · rw [hout hbt, hlbs]
      simp only [link_step, hcase, map_snd_filterMap]
      rfl
    · intro hnext
      rw [hlen] at hnext
      have hfil := link_main_callers_filter (label_map segs) (all_blocks segs) i blk hget
      have hmem : (i, i + 1) ∈
          ((link_main (label_map segs) (all_blocks segs)).2).filter (fun p => p.1 == i) := by
        rw [hfil]
        simp only [link_step, hcase, if_pos hnext]
        exact List.mem_singleton.mpr rfl
      rw [hcallers]
      exact List.mem_of_mem_filter hmem

/-- Witness for the C5 theorem: the rules instantiated on block 0 (a
Jump block) of the concrete join-example graph. -/
theorem cfg_edge_rules_witness :
    ((blockAtL cfgJoin.blocks 0).branch_type = BranchType.None ∨
      (blockAtL cfgJoin.blocks 0).branch_type = BranchType.ConditionalJump →
      out_edges cfgJoin.edges 0 =
        (if 0 + 1 < cfgJoin.blocks.length then [0 + 1] else []) ++
          resolved_targets cfgJoin.labels (blockAtL cfgJoin.blocks 0).branch_labels) ∧
    ((blockAtL cfgJoin.blocks 0).branch_type = BranchType.Jump →
      out_edges cfgJoin.edges 0 =
        resolved_targets cfgJoin.labels (blockAtL cfgJoin.blocks 0).branch_labels) ∧
    ((blockAtL cfgJoin.blocks 0).branch_type = BranchType.Call →
      out_edges cfgJoin.edges 0 =
        resolved_targets cfgJoin.labels (blockAtL cfgJoin.blocks 0).branch_labels ∧
      (0 + 1 < cfgJoin.blocks.length → (0, 0 + 1) ∈ cfgJoin.callers)) :=
  cfg_edge_rules 1 joinSegs cfgJoin 0 (blockAtL cfgJoin.blocks 0) rfl (by decide)

/-! Segment boundaries in the global block order. -/

/-- In a tiling, each block ends where the next one starts. -/
theorem tiles_get_adjacent {g : List BasicBlock} : ∀ {a c : Nat}, tiles g a c →
    ∀ k blk blk2, g.get? k = some blk → g.get? (k + 1) = some blk2 →
      blk2.start = blk.end_ := by
  induction g with
  | nil => intro a c _ k blk blk2 h; cases h
  | cons b0 rest ih =>
    intro a c h k blk blk2 h1 h2
    obtain ⟨hs, hlt, ht⟩ := h
    cases k with
    | zero =>
      have hb : b0 = blk := by simpa using h1
      subst hb
      have h2' : rest.get? 0 = some blk2 := by simpa using h2
      cases rest with
      | nil => cases h2'
      | cons b1 rest' =>
        have hb1 : b1 = blk2 := by simpa using h2'
        subst hb1
        exact ht.1
    | succ k' =>
      have h1' : rest.get? k' = some blk := by simpa using h1
      have h2' : rest.get? (k' + 1) = some blk2 := by simpa using h2
      exact ih ht k' blk blk2 h1' h2'

/-- A tiling of a nonempty range is nonempty and starts at the range's
start. -/
theorem tiles_head_start {g : List BasicBlock} {a c : Nat} (h : tiles g a c) (hac : a < c) :
    ∃ b0 rest, g = b0 :: rest ∧ b0.start = a := by
  cases g with
  | nil =>
    exfalso
    have hac' : a = c := h
    omega
  | cons b0 rest => exact ⟨b0, rest, rfl, h.1⟩

/-- When every segment is nonempty, the block physically following the
last block of a segment is the first block (start 0) of the next
segment. -/
theorem all_blocks_aux_next_seg :
    ∀ (segs : List InstructionSegment) (s0 : Nat),
      (∀ seg ∈ segs, seg.instructions ≠ []) →
      ∀ i blk blk2 seg,
        (all_blocks_aux s0 segs).get? i = some blk →
        (all_blocks_aux s0 segs).get? (i + 1) = some blk2 →
        segs.get? (blk.seg_idx - s0) = some seg →
        blk.end_ = seg.instructions.length →
        blk2.seg_idx = blk.seg_idx + 1 ∧ blk2.start = 0 := by
  intro segs
  induction segs with
  | nil => intro s0 _ i blk blk2 seg h1; cases h1
  | cons seg0 rest ih =>
    intro s0 hne i blk blk2 seg h1 h2 hseg hlast
    by_cases hi : i < (create_basic_blocks s0 seg0.instructions).length
    · have h1' : (create_basic_blocks s0 seg0.instructions).get? i = some blk := by
        rw [all_blocks_aux, List.get?_append hi] at h1
        exact h1
      have hmem : blk ∈ create_basic_blocks s0 seg0.instructions := List.get?_mem h1'
      have hsi : blk.seg_idx = s0 :=
        create_basic_blocks_aux_seg_idx s0 seg0.instructions _ 0 0 blk hmem
      have hseg0 : seg0 = seg := by
        rw [hsi, Nat.sub_self] at hseg
        simpa using hseg
      subst hseg0
      by_cases hi2 : i + 1 < (create_basic_blocks s0 seg0.instructions).length
      · exfalso
        have h2' : (create_basic_blocks s0 seg0.instructions).get? (i + 1) = some blk2 := by
          rw [all_blocks_aux, List.get?_append hi2] at h2
          exact h2
        have hadj := tiles_get_adjacent (create_basic_blocks_tiles s0 seg0.instructions)
          i blk blk2 h1' h2'
        have hb2 := tiles_bounds (create_basic_blocks_tiles s0 seg0.instructions) blk2
          (List.get?_mem h2')
        omega
      · -- blk2 is the first block of the tail
        have hlen2 : (create_basic_blocks s0 seg0.instructions).length ≤ i + 1 := by omega
        have h2' : (all_blocks_aux (s0 + 1) rest).get?
            (i + 1 - (create_basic_blocks s0 seg0.instructions).length) = some blk2 := by
          rw [all_blocks_aux, List.get?_append_right hlen2] at h2
          exact h2
        have hi1 : i + 1 - (create_basic_blocks s0 seg0.instructions).length = 0 := by omega
        rw [hi1] at h2'
        cases rest with
        | nil => cases h2'
        | cons seg1 rest' =>
          have hne1 : seg1.instructions ≠ [] := hne seg1 (by simp)
          have hlen1 : 0 < seg1.instructions.length := List.length_pos.mpr hne1
          obtain ⟨b0, bs, heq, hb0⟩ :=
            tiles_head_start (create_basic_blocks_tiles (s0 + 1) seg1.instructions) hlen1
          have h2'' : (create_basic_blocks (s0 + 1) seg1.instructions ++
              all_blocks_aux (s0 + 1 + 1) rest').get? 0 = some blk2 := h2'
          rw [heq] at h2''
          have hb2 : b0 = blk2 := by simpa using h2''
          subst hb2
          have hmem0 : b0 ∈ create_basic_blocks (s0 + 1) seg1.instructions := by
            rw [heq]
            simp
          have hsib : b0.seg_idx = s0 + 1 :=
            create_basic_blocks_aux_seg_idx (s0 + 1) seg1.instructions
              seg1.instructions.length 0 0 b0 hmem0
          constructor
          · rw [hsib, hsi]
          · rw [hb0]
    · have hlen0 : (create_basic_blocks s0 seg0.instructions).length ≤ i := by omega
      have h1' : (all_blocks_aux (s0 + 1) rest).get?
          (i - (create_basic_blocks s0 seg0.instructions).length) = some blk := by
        rw [all_blocks_aux, List.get?_append_right hlen0] at h1
        exact h1
      have h2' : (all_blocks_aux (s0 + 1) rest).get?
          ((i - (create_basic_blocks s0 seg0.instructions).length) + 1) = some blk2 := by
        rw [all_blocks_aux, List.get?_append_right (by omega : (create_basic_blocks s0 seg0.instructions).length ≤ i + 1)] at h2
        have harith : i + 1 - (create_basic_blocks s0 seg0.instructions).length
            = (i - (create_basic_blocks s0 seg0.instructions).length) + 1 := by omega
        rw [harith] at h2
        exact h2
      have hge : s0 + 1 ≤ blk.seg_idx :=
        all_blocks_aux_seg_idx_ge rest (s0 + 1) blk (List.get?_mem h1')
      have hseg' : rest.get? (blk.seg_idx - (s0 + 1)) = some seg := by
        have harith : blk.seg_idx - s0 = (blk.seg_idx - (s0 + 1)) + 1 := by omega
        rw [harith] at hseg
        simpa using hseg
      exact ih (s0 + 1) (fun s hs => hne s (by simp [hs])) _ blk blk2 seg h1' h2' hseg' hlast

/-- In a built graph, the successor list of a non-Return block is the
image of its own iteration of the main linking loop. -/
theorem cfg_out_edges_eq (fuel : Nat) (segs : List InstructionSegment)
    (cfg : ControlFlowGraph) (i : Nat) (blk : BasicBlock)
    (h : create_control_flow_graph fuel segs = some cfg)
    (hblk : cfg.blocks.get? i = some blk)
    (hbt : blk.branch_type ≠ BranchType.Return) :
    out_edges cfg.edges i =
      ((link_step (label_map segs) (all_blocks segs).length i blk).1).map (fun p => p.2) := by
  obtain ⟨hsegs, hblocks, hlbs, hcallers, hrun⟩ := create_cfg_inv fuel segs cfg h
  have hget : (all_blocks segs).get? i = some blk := hblocks ▸ hblk
  have hbat : blockAtL (all_blocks segs) i = blk := blockAtL_eq hget
  have hmain := link_main_out_edges (label_map segs) (all_blocks segs) i blk hget
  obtain ⟨add, hE, hret⟩ := run_callers_extends (label_map segs) (all_blocks segs) fuel _ _ _
    hrun
  have hadd0 : out_edges add i = [] :=
    out_edges_ret_sources_nil (all_blocks segs) add i hret (by rw [hbat]; exact hbt)
  have hcfgE : cfg.edges = (link_main (label_map segs) (all_blocks segs)).1 ++ add := hE
  rw [hcfgE, out_edges_append, hadd0, List.append_nil, hmain]

/-- In a built graph, the caller pairs naming a block are its own
iteration's pairs. -/
theorem cfg_callers_filter_eq (fuel : Nat) (segs : List InstructionSegment)
    (cfg : ControlFlowGraph) (i : Nat) (blk : BasicBlock)
    (h : create_control_flow_graph fuel segs = some cfg)
    (hblk : cfg.blocks.get? i = some blk) :
    cfg.callers.filter (fun p => p.1 == i) =
      (link_step (label_map segs) (all_blocks segs).length i blk).2 := by
  obtain ⟨hsegs, hblocks, hlbs, hcallers, hrun⟩ := create_cfg_inv fuel segs cfg h
  have hget : (all_blocks segs).get? i = some blk := hblocks ▸ hblk
  rw [hcallers]
  exact link_main_callers_filter (label_map segs) (all_blocks segs) i blk hget

/-- C9: fallthrough and call continuations cross segment boundaries in
global block order — when every segment has instructions, a block that
is the last block of its segment is followed in the block list by the
first block (start 0) of the next segment; a None or ConditionalJump
block there falls through to it and a Call block records it as the
return continuation; and the very last block of the last segment gets
no fallthrough edge and no continuation pair. -/
theorem cfg_cross_segment_continuations (fuel : Nat) (segs : List InstructionSegment)
    (cfg : ControlFlowGraph) (i : Nat) (blk : BasicBlock) (seg : InstructionSegment)
    (h : create_control_flow_graph fuel segs = some cfg)
    (hne : ∀ s ∈ segs, s.instructions ≠ [])
    (hblk : cfg.blocks.get? i = some blk)
    (hseg : segs.get? blk.seg_idx = some seg)
    (hlast : blk.end_ = seg.instructions.length) :
    (∀ blk2, cfg.blocks.get? (i + 1) = some blk2 →
      blk2.seg_idx = blk.seg_idx + 1 ∧ blk2.start = 0 ∧
      ((blk.branch_type = BranchType.None ∨ blk.branch_type = BranchType.ConditionalJump) →
        (i + 1) ∈ out_edges cfg.edges i) ∧
      (blk.branch_type = BranchType.Call → (i, i + 1) ∈ cfg.callers)) ∧
    (i + 1 = cfg.blocks.length →
      ((blk.branch_type = BranchType.None ∨ blk.branch_type = BranchType.ConditionalJump) →
        out_edges cfg.edges i = resolved_targets cfg.labels blk.branch_labels) ∧
      (blk.branch_type = BranchType.Call → ∀ j, (i, j) ∉ cfg.callers)) := by
  obtain ⟨hsegs, hblocks, hlbs, hcallers, hrun⟩ := create_cfg_inv fuel segs cfg h
  have hget : (all_blocks segs).get? i = some blk := hblocks ▸ hblk
  have hlen : cfg.blocks.length = (all_blocks segs).length := by rw [hblocks]
  constructor
  · intro blk2 hblk2
    have hget2 : (all_blocks segs).get? (i + 1) = some blk2 := hblocks ▸ hblk2
    have hseg0 : segs.get? (blk.seg_idx - 0) = some seg := by simpa using hseg
    obtain ⟨hsi2, hst2⟩ :=
      all_blocks_aux_next_seg segs 0 hne i blk blk2 seg hget hget2 hseg0 hlast
    have hnext : i + 1 < cfg.blocks.length := by
      rw [hlen]
      exact (List.get?_eq_some.mp hget2).1
    refine ⟨hsi2, hst2, ?_, ?_⟩
    · intro hcase
      have hbt : blk.branch_type ≠ BranchType.Return := by
        rcases hcase with hc | hc <;> rw [hc] <;> intro hf <;> cases hf
      rw [cfg_out_edges_eq fuel segs cfg i blk h hblk hbt]
      rw [hlen] at hnext
      rcases hcase with hc | hc <;>
        · simp only [link_step, hc, List.map_append]
          apply List.mem_append_left
          rw [if_pos hnext]
          simp
    · intro hcase
      have hfil := cfg_callers_filter_eq fuel segs cfg i blk h hblk
      rw [hlen] at hnext
      have hmem : (i, i + 1) ∈ cfg.callers.filter (fun p => p.1 == i) := by
        rw [hfil]
        simp only [link_step, hcase, if_pos hnext]
        exact List.mem_singleton.mpr rfl
      exact List.mem_of_mem_filter hmem
  · intro hend
    have hnn : ¬ (i + 1 < (all_blocks segs).length) := by omega
    constructor
    · intro hcase
      have hbt : blk.branch_type ≠ BranchType.Return := by
        rcases hcase with hc | hc <;> rw [hc] <;> intro hf <;> cases hf
      rw [cfg_out_edges_eq fuel segs cfg i blk h hblk hbt, hlbs]
      rcases hcase with hc | hc <;>
        · simp only [link_step, hc, List.map_append, if_neg hnn, List.map_nil,
            List.nil_append, map_snd_filterMap]
          rfl
    · intro hcase j hmem
      have hfil := cfg_callers_filter_eq fuel segs cfg i blk h hblk
      have hmemf : (i, j) ∈ cfg.callers.filter (fun p => p.1 == i) :=
        List.mem_filter.mpr ⟨hmem, by simp⟩
      rw [hfil] at hmemf
      simp only [link_step, hcase, if_neg hnn] at hmemf
      cases hmemf

/-- Witness for the C9 theorem: the continuation facts instantiated on
the call block ending the first segment of the concrete two-segment
program. -/
theorem cfg_cross_segment_continuations_witness :
    (∀ blk2, cfgW.blocks.get? (0 + 1) = some blk2 →
      blk2.seg_idx = (blockAtL cfgW.blocks 0).seg_idx + 1 ∧ blk2.start = 0 ∧
      (((blockAtL cfgW.blocks 0).branch_type = BranchType.None ∨
        (blockAtL cfgW.blocks 0).branch_type = BranchType.ConditionalJump) →
        (0 + 1) ∈ out_edges cfgW.edges 0) ∧
      ((blockAtL cfgW.blocks 0).branch_type = BranchType.Call →
        (0, 0 + 1) ∈ cfgW.callers)) ∧
    (0 + 1 = cfgW.blocks.length →
      (((blockAtL cfgW.blocks 0).branch_type = BranchType.None ∨
        (blockAtL cfgW.blocks 0).branch_type = BranchType.ConditionalJump) →
        out_edges cfgW.edges 0 =
          resolved_targets cfgW.labels (blockAtL cfgW.blocks 0).branch_labels) ∧
      ((blockAtL cfgW.blocks 0).branch_type = BranchType.Call →
        ∀ j, (0, j) ∉ cfgW.callers)) :=
  cfg_cross_segment_continuations 2 wSegs cfgW 0 (blockAtL cfgW.blocks 0) ⟨[0], [⟨.call, [1], none⟩]⟩
    rfl (by decide) (by decide) (by decide) (by decide)

/-- Every label edge records the resolution of one of the block's
branch labels. -/
theorem mem_label_edges_snd {lbs : List (Int × Nat)} {i : Nat} {labels : List Int}
    {p : Nat × Nat}
    (hp : p ∈ labels.filterMap (fun l => (lb_get lbs l).map (fun t => (i, t)))) :
    ∃ l ∈ labels, lb_get lbs l = some p.2 := by
  rcases List.mem_filterMap.mp hp with ⟨l, hl, hmap⟩
  rcases Option.map_eq_some'.mp hmap with ⟨t, ht, hpt⟩
  subst hpt
  exact ⟨l, hl, ht⟩

/-- C7: graceful degradation on unresolved references — the value-set
query of an instruction absent from the graph's instruction map returns
the empty set; every successor of a (non-Return) block is either the
fallthrough block or the resolution of one of its branch labels, so a
label with no matching segment contributes no edge; and on a concrete
program whose only branch label is dangling, construction succeeds and
the block simply has no outgoing edge. -/
theorem cfg_graceful_degradation :
    (∀ (cfg : ControlFlowGraph) (fuel s idx : Nat) (register : Int),
      instr_block cfg s idx = none →
      register_value_set cfg fuel s idx register = some ∅) ∧
    (∀ (fuel : Nat) (segs : List InstructionSegment) (cfg : ControlFlowGraph) (i : Nat)
      (blk : BasicBlock) (t : Nat),
      create_control_flow_graph fuel segs = some cfg →
      cfg.blocks.get? i = some blk →
      blk.branch_type ≠ BranchType.Return →
      t ∈ out_edges cfg.edges i →
      t = i + 1 ∨ ∃ l ∈ blk.branch_labels, lb_get cfg.labels l = some t) ∧
    (create_control_flow_graph 1 danglingSegs = some cfgDangling ∧
      out_edges cfgDangling.edges 0 = []) := by
  refine ⟨?_, ?_, rfl, by decide⟩
  · intro cfg fuel s idx register hnone
    simp only [register_value_set, hnone]
  · intro fuel segs cfg i blk t h hblk hbt hmem
    obtain ⟨hsegs, hblocks, hlbs, hcallers, hrun⟩ := create_cfg_inv fuel segs cfg h
    rw [cfg_out_edges_eq fuel segs cfg i blk h hblk hbt] at hmem
    rcases List.mem_map.mp hmem with ⟨p, hp, hpt⟩
    rw [hlbs]
    cases hc : blk.branch_type with
    | Return => exact absurd hc hbt
    | Jump =>
      simp only [link_step, hc] at hp
      right
      rw [← hpt]
      exact mem_label_edges_snd hp
    | Call =>
      simp only [link_step, hc] at hp
      right
      rw [← hpt]
      exact mem_label_edges_snd hp
    | None =>
      simp only [link_step, hc] at hp
      rcases List.mem_append.mp hp with hmem' | hmem'
      · left
        by_cases hn : i + 1 < (all_blocks segs).length
        · rw [if_pos hn] at hmem'
          rw [← hpt, List.mem_singleton.mp hmem']
        · rw [if_neg hn] at hmem'
          cases hmem'
      · right
        rw [← hpt]
        exact mem_label_edges_snd hmem'
    | ConditionalJump =>
      simp only [link_step, hc] at hp
      rcases List.mem_append.mp hp with hmem' | hmem'
      · left
        by_cases hn : i + 1 < (all_blocks segs).length
        · rw [if_pos hn] at hmem'
          rw [← hpt, List.mem_singleton.mp hmem']
        · rw [if_neg hn] at hmem'
          cases hmem'
      · right
        rw [← hpt]
        exact mem_label_edges_snd hmem'

/-- Witness for the C7 theorem: a query at a location outside every
segment — hence absent from the instruction map — returns the empty
set. -/
theorem cfg_graceful_degradation_witness :
    register_value_set cfgEx1 3 5 0 0 = some ∅ :=
  cfg_graceful_degradation.1 cfgEx1 3 5 0 0 (by decide)

/-- C8: stepping semantics of the debugger host — step_in on a
call-classified instruction (call, va_call, switch_call) pushes a
stepping breakpoint at the source line of the first instruction of the
callee's segment and on any other instruction behaves exactly like
step_over; step_over on a call-classified instruction pushes a stepping
breakpoint at the call's continuation (the next instruction, or the
first instruction of the next segment when the call is last in its
segment), and on any other instruction sets the break-on-next flag so
the next instruction executed breaks. -/
theorem quest_runner_stepping :
    ∀ (q : QuestRunnerState) (si ii : Nat) (seg : InstructionSegment) (cur : Instruction),
      q.object_code.get? si = some seg →
      seg.instructions.get? ii = some cur →
      (get_step_innable_instruction_label_argument cur = none →
        step_in q si ii = step_over q si ii ∧
        step_over q si ii = some { q with break_on_next := true }) ∧
      (∀ l, get_step_innable_instruction_label_argument cur = some l →
        (∀ dseg dinst tok,
          q.object_code.get? (if seg.instructions.length ≤ ii + 1 then si + 1 else si) =
            some dseg →
          dseg.instructions.get? (if seg.instructions.length ≤ ii + 1 then 0 else ii + 1) =
            some dinst →
          dinst.asm = some tok →
          step_over q si ii =
            some { q with stepping_breakpoints := q.stepping_breakpoints ++ [tok.line_no] }) ∧
        (∀ dsi dseg dinst tok,
          get_segment_index_by_label q.object_code l = some dsi →
          q.object_code.get? dsi = some dseg →
          dseg.instructions.get? 0 = some dinst →
          dinst.asm = some tok →
          step_in q si ii =
            some { q with
              stepping_breakpoints := q.stepping_breakpoints ++ [tok.line_no] })) := by
  intro q si ii seg cur hseg hcur
  refine ⟨?_, ?_⟩
  · intro hnone
    constructor
    · simp only [step_in, step_over, hseg, hcur, hnone]
    · simp only [step_over, hseg, hcur, hnone]
  · intro l hsome
    constructor
    · intro dseg dinst tok hd1 hd2 hd3
      simp only [step_over, hseg, hcur, hsome, hd1, hd2, hd3]
    · intro dsi dseg dinst tok hd1 hd2 hd3 hd4
      simp only [step_in, hseg, hcur, hsome, hd1, hd2, hd3, hd4]

/-- Witness for the C8 theorem: the stepping facts instantiated on the
concrete runner state, at the call that opens the first segment. -/
theorem quest_runner_stepping_witness :
    (get_step_innable_instruction_label_argument ⟨.call, [1], some ⟨10, 4⟩⟩ = none →
      step_in qW 0 0 = step_over qW 0 0 ∧
      step_over qW 0 0 = some { qW with break_on_next := true }) ∧
    (∀ l, get_step_innable_instruction_label_argument ⟨.call, [1], some ⟨10, 4⟩⟩ = some l →
      (∀ dseg dinst tok,
        qW.object_code.get?
            (if (⟨[0], [⟨.call, [1], some ⟨10, 4⟩⟩, ⟨.ret, [], some ⟨11, 4⟩⟩]⟩ :
              InstructionSegment).instructions.length ≤ 0 + 1 then 0 + 1 else 0) =
          some dseg →
        dseg.instructions.get?
            (if (⟨[0], [⟨.call, [1], some ⟨10, 4⟩⟩, ⟨.ret, [], some ⟨11, 4⟩⟩]⟩ :
              InstructionSegment).instructions.length ≤ 0 + 1 then 0 else 0 + 1) =
          some dinst →
        dinst.asm = some tok →
        step_over qW 0 0 =
          some { qW with stepping_breakpoints := qW.stepping_breakpoints ++ [tok.line_no] }) ∧
      (∀ dsi dseg dinst tok,
        get_segment_index_by_label qW.object_code l = some dsi →
        qW.object_code.get? dsi = some dseg →
        dseg.instructions.get? 0 = some dinst →
        dinst.asm = some tok →
        step_in qW 0 0 =
          some { qW with stepping_breakpoints := qW.stepping_breakpoints ++ [tok.line_no] })) :=
  quest_runner_stepping qW 0 0
    ⟨[0], [⟨.call, [1], some ⟨10, 4⟩⟩, ⟨.ret, [], some ⟨11, 4⟩⟩]⟩
    ⟨.call, [1], some ⟨10, 4⟩⟩ (by decide) (by decide)

namespace Codec

/-! Round-trip lemmas for the modelled binary codec, innermost
encoders first: each states that parsing an encoding followed by any
remaining bytes recovers the encoded value and the remainder. -/

theorem parse_u16_enc (v : Nat) (_hv : v < 65536) (rest : List Nat) :
    parse_u16 (enc_u16 v ++ rest) = some (v, rest) := by
  simp only [enc_u16, List.cons_append, List.nil_append, parse_u16]
  have hval : v % 256 + 256 * (v / 256) = v := by omega
  rw [hval]

theorem parse_u32_enc (v : Nat) (_hv : v < 4294967296) (rest : List Nat) :
    parse_u32 (enc_u32 v ++ rest) = some (v, rest) := by
  simp only [enc_u32, List.cons_append, List.nil_append, parse_u32]
  have hval : v % 256 + 256 * (v / 256 % 256) + 65536 * (v / 65536 % 256)
      + 16777216 * (v / 16777216) = v := by omega
  rw [hval]

theorem parse_code_enc (c : Nat) (hc : valid_code c = true) (rest : List Nat) :
    parse_code (enc_code c ++ rest) = some (c, rest) := by
  simp only [valid_code, Bool.or_eq_true, Bool.and_eq_true, decide_eq_true_eq, ESC1] at hc
  by_cases h1 : c < 248
  · simp only [enc_code, ESC1, ESC2, if_pos h1, List.cons_append, List.nil_append, parse_code]
    rw [if_neg (by omega), if_neg (by omega)]
  · have hrange : 63488 ≤ c ∧ c < 64000 := by
      rcases hc with hc | hc
      · omega
      · exact hc
    by_cases h2 : c < 63744
    · simp only [enc_code, ESC1, ESC2, if_neg h1, if_pos h2, List.cons_append,
        List.nil_append, parse_code]
      have hval : 63488 + c % 256 = c := by omega
      simp [hval]
    · simp only [enc_code, ESC1, ESC2, if_neg h1, if_neg h2, List.cons_append,
        List.nil_append, parse_code]
      have hval : 63744 + c % 256 = c := by omega
      simp [hval]

theorem parse_str_enc (s : List Nat) (hs : ∀ b ∈ s, b ≠ 0) (rest : List Nat) :
    parse_str (enc_str s ++ rest) = some (s, rest) := by
  induction s with
  | nil => simp [enc_str, parse_str]
  | cons b s' ih =>
    have hb : b ≠ 0 := hs b (by simp)
    have ih' : parse_str (enc_str s' ++ rest) = some (s', rest) :=
      ih (fun x hx => hs x (by simp [hx]))
    have hshape : enc_str (b :: s') ++ rest = b :: (enc_str s' ++ rest) := by simp [enc_str]
    rw [hshape]
    show (if b = 0 then some ([], enc_str s' ++ rest)
      else match parse_str (enc_str s' ++ rest) with
        | none => none
        | some (s, r2) => some (b :: s, r2)) = some (b :: s', rest)
    rw [if_neg hb, ih']

theorem parse_arg_enc (t : ParamType) (a : CArg) (h : valid_arg t a = true)
    (rest : List Nat) : parse_arg t (enc_arg t a ++ rest) = some (a, rest) := by
  cases t <;> cases a <;> simp only [valid_arg, decide_eq_true_eq, Bool.false_eq_true] at h
  case reg.num v => simp [enc_arg, parse_arg, parse_u8]
  case imm8.num v => simp [enc_arg, parse_arg, parse_u8]
  case imm16.num v => simp [enc_arg, parse_arg, parse_u16_enc v h rest]
  case imm32.num v => simp [enc_arg, parse_arg, parse_u32_enc v h rest]
  case label.num v => simp [enc_arg, parse_arg, parse_u16_enc v h rest]
  case str.str s =>
    have hs : ∀ b ∈ s, b ≠ 0 := by
      intro b hb
      have := List.all_eq_true.mp h b hb
      simp only [Bool.and_eq_true, decide_eq_true_eq] at this
      exact this.1
    simp [enc_arg, parse_arg, parse_str_enc s hs rest]

theorem parse_args_enc : ∀ (ts : List ParamType) (as_ : List CArg),
    valid_args ts as_ = true → ∀ rest : List Nat,
      parse_args ts (enc_args ts as_ ++ rest) = some (as_, rest) := by
  intro ts
  induction ts with
  | nil =>
    intro as_ h rest
    cases as_ with
    | nil => simp [enc_args, parse_args]
    | cons a r => simp [valid_args] at h
  | cons t ts' ih =>
    intro as_ h rest
    cases as_ with
    | nil => simp [valid_args] at h
    | cons a as' =>
      simp only [valid_args, Bool.and_eq_true] at h
      simp only [enc_args, List.append_assoc, parse_args,
        parse_arg_enc t a h.1, ih as' h.2]

theorem parse_n_u16_enc : ∀ (labels : List Nat),
    (∀ l ∈ labels, l < 65536) → ∀ rest : List Nat,
      parse_n_u16 labels.length ((labels.map enc_u16).flatten ++ rest) =
        some (labels, rest) := by
  intro labels
  induction labels with
  | nil => intro _ rest; simp [parse_n_u16]
  | cons l rest' ih =>
    intro h rest
    simp only [List.map_cons, List.flatten_cons, List.length_cons, List.append_assoc,
      parse_n_u16, parse_u16_enc l (h l (by simp)),
      ih (fun x hx => h x (by simp [hx])) rest]

theorem parse_labels_enc (labels : List Nat) (h : valid_labels labels = true)
    (rest : List Nat) : parse_labels (enc_labels labels ++ rest) = some (labels, rest) := by
  simp only [valid_labels, Bool.and_eq_true, decide_eq_true_eq, List.all_eq_true] at h
  have hl : ∀ l ∈ labels, l < 65536 := by
    intro l hl
    have := h.2 l hl
    simpa using this
  simp only [enc_labels, List.cons_append, parse_labels, parse_u8,
    parse_n_u16_enc labels hl rest]

theorem parse_instr_enc (tbl : OpTable) (inst : CInstr)
    (h : valid_instr tbl inst = true) (rest : List Nat) :
    parse_instr tbl (enc_instr tbl inst ++ rest) = some (inst, rest) := by
  simp only [valid_instr, Bool.and_eq_true] at h
  obtain ⟨hcode, hrest⟩ := h
  cases htbl : tbl inst.code with
  | none => simp only [htbl, Bool.false_eq_true] at hrest
  | some sig =>
    simp only [htbl, Bool.and_eq_true] at hrest
    obtain ⟨hfixed, hva⟩ := hrest
    cases hv : sig.vararg with
    | none =>
      simp only [hv, decide_eq_true_eq] at hva
      have htake : inst.args.take sig.params.length = inst.args :=
        List.take_of_length_le (by omega)
      simp only [enc_instr, htbl, hv, List.append_nil, List.append_assoc,
        parse_instr, parse_code_enc inst.code hcode, htake,
        parse_args_enc sig.params inst.args (htake ▸ hfixed) rest]
    | some t =>
      simp only [hv, Bool.and_eq_true, decide_eq_true_eq] at hva
      obtain ⟨hcount, hvalid⟩ := hva
      simp only [enc_instr, htbl, hv, List.cons_append, List.append_assoc, parse_instr,
        parse_code_enc inst.code hcode,
        parse_args_enc sig.params (inst.args.take sig.params.length) hfixed, parse_u8,
        parse_args_enc (List.replicate (inst.args.drop sig.params.length).length t)
          (inst.args.drop sig.params.length) hvalid rest,
        List.take_append_drop]

theorem parse_n_instrs_enc (tbl : OpTable) : ∀ (insts : List CInstr),
    (∀ i ∈ insts, valid_instr tbl i = true) → ∀ rest : List Nat,
      parse_n_instrs tbl insts.length (enc_instrs tbl insts ++ rest) =
        some (insts, rest) := by
  intro insts
  induction insts with
  | nil => intro _ rest; simp [enc_instrs, parse_n_instrs]
  | cons i insts' ih =>
    intro h rest
    simp only [enc_instrs, List.map_cons, List.flatten_cons, List.length_cons,
      List.append_assoc, parse_n_instrs, parse_instr_enc tbl i (h i (by simp))]
    have := ih (fun x hx => h x (by simp [hx])) rest
    simp only [enc_instrs] at this
    rw [this]

theorem parse_n_strs_enc : ∀ (strs : List (List Nat)),
    (∀ s ∈ strs, ∀ b ∈ s, b ≠ 0) → ∀ rest : List Nat,
      parse_n_strs strs.length (enc_strs strs ++ rest) = some (strs, rest) := by
  intro strs
  induction strs with
  | nil => intro _ rest; simp [enc_strs, parse_n_strs]
  | cons s strs' ih =>
    intro h rest
    simp only [enc_strs, List.map_cons, List.flatten_cons, List.length_cons,
      List.append_assoc, parse_n_strs, parse_str_enc s (h s (by simp))]
    have := ih (fun x hx => h x (by simp [hx])) rest
    simp only [enc_strs] at this
    rw [this]

theorem parse_segment_enc (tbl : OpTable) (seg : CSegment)
    (h : valid_segment tbl seg = true) (rest : List Nat) :
    parse_segment tbl (enc_segment tbl seg ++ rest) = some (seg, rest) := by
  cases seg with
  | instructions labels insts =>
    simp only [valid_segment, Bool.and_eq_true, decide_eq_true_eq, List.all_eq_true] at h
    obtain ⟨⟨hlab, hcount⟩, hinsts⟩ := h
    simp only [enc_segment, List.cons_append, List.append_assoc, parse_segment,
      parse_labels_enc labels hlab, parse_u8,
      parse_n_instrs_enc tbl insts hinsts rest]
    simp
  | data labels bytes =>
    simp only [valid_segment, Bool.and_eq_true, decide_eq_true_eq, List.all_eq_true] at h
    obtain ⟨⟨hlab, hlen⟩, hbytes⟩ := h
    simp only [enc_segment, List.cons_append, List.append_assoc, parse_segment,
      parse_labels_enc labels hlab, parse_u16_enc bytes.length hlen]
    simp [List.take_left, List.drop_left]
  | strings labels strs =>
    simp only [valid_segment, Bool.and_eq_true, decide_eq_true_eq, List.all_eq_true] at h
    obtain ⟨⟨hlab, hcount⟩, hstrs⟩ := h
    have hs : ∀ s ∈ strs, ∀ b ∈ s, b ≠ 0 := by
      intro s hsm b hb
      exact (hstrs s hsm b hb).1
    simp only [enc_segment, List.cons_append, List.append_assoc, parse_segment,
      parse_labels_enc labels hlab, parse_u8, parse_n_strs_enc strs hs rest]
    simp

theorem enc_segment_length_pos (tbl : OpTable) (seg : CSegment) :
    1 ≤ (enc_segment tbl seg).length := by
  cases seg <;> simp [enc_segment]

theorem length_le_write_bin (tbl : OpTable) : ∀ segs : List CSegment,
    segs.length ≤ (write_bin tbl segs).length := by
  intro segs
  induction segs with
  | nil => simp [write_bin]
  | cons s ss ih =>
    have hpos := enc_segment_length_pos tbl s
    have hw : write_bin tbl (s :: ss) = enc_segment tbl s ++ write_bin tbl ss := by
      simp [write_bin]
    rw [hw, List.length_append, List.length_cons]
    omega

theorem parse_bin_aux_enc (tbl : OpTable) : ∀ (segs : List CSegment) (fuel : Nat),
    valid_program tbl segs = true → segs.length ≤ fuel →
      parse_bin_aux tbl fuel (write_bin tbl segs) = some segs := by
  intro segs
  induction segs with
  | nil =>
    intro fuel _ _
    cases fuel <;> simp [write_bin, parse_bin_aux]
  | cons s ss ih =>
    intro fuel hv hlen
    cases fuel with
    | zero =>
      simp only [List.length_cons] at hlen
      omega
    | succ f =>
      simp only [valid_program, List.all_cons, Bool.and_eq_true] at hv
      have hw : write_bin tbl (s :: ss) = enc_segment tbl s ++ write_bin tbl ss := by
        simp [write_bin]
      have hseg := parse_segment_enc tbl s hv.1 (write_bin tbl ss)
      obtain ⟨x, xs, hx⟩ : ∃ x xs, enc_segment tbl s ++ write_bin tbl ss = x :: xs := by
        cases s <;> exact ⟨_, _, rfl⟩
      rw [hw, hx]
      show (match parse_segment tbl (x :: xs) with
        | none => none
        | some (seg, r1) =>
          match parse_bin_aux tbl f r1 with
          | none => none
          | some segs => some (seg :: segs)) = some (s :: ss)
      rw [← hx, hseg]
      show (match parse_bin_aux tbl f (write_bin tbl ss) with
        | none => none
        | some segs => some (s :: segs)) = some (s :: ss)
      have hlen' : ss.length ≤ f := by
        simp only [List.length_cons] at hlen
        omega
      rw [ih f (by simp only [valid_program]; exact hv.2) hlen']

/-- C1: binary codec round-trip, on the codec modelled from the spec
(the source codec is not under src/) — for every valid IR segment
list, parsing its encoding yields it back; and for every valid
object-code byte sequence (one that encodes a valid program),
re-encoding its parse reproduces the bytes bit-exactly. -/
theorem codec_round_trip (tbl : OpTable) :
    (∀ segs : List CSegment, valid_program tbl segs = true →
      parse_bin tbl (write_bin tbl segs) = some segs) ∧
    (∀ (b : List Nat) (segs : List CSegment), valid_program tbl segs = true →
      b = write_bin tbl segs →
      (parse_bin tbl b).map (write_bin tbl) = some b) := by
  have hfst : ∀ segs : List CSegment, valid_program tbl segs = true →
      parse_bin tbl (write_bin tbl segs) = some segs := by
    intro segs hv
    exact parse_bin_aux_enc tbl segs (write_bin tbl segs).length hv
      (length_le_write_bin tbl segs)
  refine ⟨hfst, ?_⟩
  intro b segs hv hb
  subst hb
  rw [hfst segs hv]
  rfl

/-- Witness for the C1 theorem: the round trip applied to a concrete
table and a concrete program exercising all three segment kinds, an
escaped opcode, an inline string and a variadic tail. -/
theorem codec_round_trip_witness :
    parse_bin tblW (write_bin tblW progW) = some progW :=
  (codec_round_trip tblW).1 progW (by decide)

end Codec

end PhantasmalWorld
